import Mathlib

/-!
A shallow embedding of the lazy value evaluation core of the koka runtime
(src/kklib/src/lazy.c and src/kklib/include/kklib/lazy.h), together with
proofs about its force protocol.

The heap layer (block headers, tags, refcounts, allocation, boxing) is an
external collaborator of the lazy subsystem and is not part of the sources;
it is modelled from the spec (section 3 and 6):
- a boxed value is an immediate word or a pointer to a heap block;
- a block has a tag, a scan field count, a refcount (0 means uniquely
  owned) with a separate thread-shared encoding, and inline fields;
- lazy tags are the tags at or above the sentinel `KK_TAG_LAZY`, with the
  distinguished tags `KK_TAG_LAZY_PREP`, `KK_TAG_LAZY_EVAL` (blackhole) and
  `KK_TAG_LAZY_IND` (indirection) inside the lazy range.

The heap is an association list from addresses to blocks.  Fuel makes the
driver loop (a do-while in C) total; running out of fuel yields `timeout`,
and undefined behaviour (dereferencing a dangling or non-pointer value,
reading a missing field) yields `stuck`.  Aborting via `kk_fatal_error`
yields `fatal` with the error code and the state at the abort.

As ghost instrumentation the context carries `evalCount` and `calls`, the
number of evaluator invocations and the list of arguments passed to the
evaluator; the two evaluator call sites in lazy.c (lines 25 and 58) go
through `kk_function_call`, which records the invocation.  No modelled code
reads the instrumentation.
-/

set_option maxRecDepth 10000

/-- Modelled from the spec: a boxed value is either an immediate
(non-pointer) word or a pointer to a heap block. -/
inductive Val : Type where
  | imm (n : Nat)
  | ptr (a : Nat)
deriving DecidableEq, Repr

/-- Modelled from the spec: a heap block with tag, scan field count,
refcount (`rc = 0` means uniquely owned), the thread-shared refcount
encoding (a reserved high bit in C, a separate flag here) and fields. -/
structure Block : Type where
  tag : Nat
  scan_fsize : Nat
  rc : Nat
  threadShared : Bool
  fields : List Val
deriving DecidableEq, Repr

/-- Modelled from the spec: the heap maps addresses to blocks. -/
abbrev Heap : Type := List (Nat × Block)

/-- Lookup of the block at an address. -/
def hGet : Heap → Nat → Option Block
  | [], _ => none
  | p :: h, a => if p.1 = a then some p.2 else hGet h a

/-- In-place update of the block stored at an address. -/
def hSet (h : Heap) (a : Nat) (blk : Block) : Heap :=
  h.map (fun p => if p.1 = a then (a, blk) else p)

/-- Modelled from the spec: `kk_block_free` releases the block's memory
without touching its fields (the caller has moved them out). -/
def hFree : Heap → Nat → Heap
  | [], _ => []
  | p :: h, a => if p.1 = a then hFree h a else p :: hFree h a

/-- The runtime context: the heap, an allocation cursor, the yielding flag
of the effect system, and the ghost evaluator-call instrumentation. -/
structure Ctx : Type where
  heap : Heap
  nextFresh : Nat
  yielding : Bool
  evalCount : Nat
  calls : List Val
deriving DecidableEq, Repr

/-- Result of running a lazy-core operation: a normal return, a fatal
abort (`kk_fatal_error` code plus the state at the abort), fuel
exhaustion, or undefined behaviour. -/
inductive LRes : Type where
  | ok (ctx : Ctx) (v : Val)
  | fatal (err : Nat) (ctx : Ctx)
  | timeout
  | stuck
deriving DecidableEq, Repr

/-- An evaluator is a caller-supplied function from a boxed value to a
boxed value, which may act on the runtime state. -/
abbrev EvalFn : Type := Ctx → Val → LRes

/-- Modelled from the spec: the sentinel `LAZY_MIN`; lazy tags are the
tags at or above it. -/
def KK_TAG_LAZY : Nat := 40

/-- Modelled from the spec: tag reserved for the thread-shared protocol. -/
def KK_TAG_LAZY_PREP : Nat := 41

/-- Modelled from the spec: the blackhole marker tag. -/
def KK_TAG_LAZY_EVAL : Nat := 42

/-- Modelled from the spec: the indirection marker tag. -/
def KK_TAG_LAZY_IND : Nat := 43

/-- Modelled from the spec: an error code meaning not supported. -/
def ENOTSUP : Nat := 95

/-- Modelled from the spec: a tag is lazy iff it is at or above the
sentinel `KK_TAG_LAZY`. -/
def kk_tag_is_lazy (t : Nat) : Bool := KK_TAG_LAZY ≤ t

/-- lazy.h: `kk_block_is_lazy`. -/
def kk_block_is_lazy (b : Block) : Bool := kk_tag_is_lazy b.tag

/-- lazy.h: `kk_block_is_lazy_or_special`, the single-compare fast test. -/
def kk_block_is_lazy_or_special (b : Block) : Bool := KK_TAG_LAZY ≤ b.tag

/-- lazy.h: `kk_block_is_blackhole`. -/
def kk_block_is_blackhole (b : Block) : Bool := b.tag = KK_TAG_LAZY_EVAL

/-- Modelled from the spec: `kk_block_is_unique` holds when the whole
refcount word is zero; a thread-shared block is never unique. -/
def kk_block_is_unique (b : Block) : Bool := b.rc = 0 && !b.threadShared

/-- Ghost instrumentation: context as seen by the evaluator at a call
site; the invocation is recorded in `evalCount` and `calls`. -/
def lazyCallCtx (ctx : Ctx) (v : Val) : Ctx :=
  { ctx with evalCount := ctx.evalCount + 1, calls := ctx.calls ++ [v] }

/-- `kk_function_call` of the evaluator with a boxed value (both call
sites of lazy.c route through this). -/
def kk_function_call (e : EvalFn) (v : Val) (ctx : Ctx) : LRes :=
  e (lazyCallCtx ctx v) v

/-- lazy.c lines 17-26: `kk_lazy_eval_unique`: evaluate a unique lazy
block by calling the evaluator on a boxed pointer to the block itself; no
blackhole, no indirection, no copy (the asserts are debug-only). -/
def kk_lazy_eval_unique (A : Nat) (e : EvalFn) (ctx : Ctx) : LRes :=
  kk_function_call e (Val.ptr A) ctx

/-- Modelled from the spec: `kk_block_alloc_copy` allocates a fresh block
with the same tag, scan size and fields and refcount zero (the field
references are moved, the original is immediately blackholed). -/
def kk_block_alloc_copy (b : Block) : Block :=
  { b with rc := 0, threadShared := false }

/-- lazy.c lines 54-55: overwrite a block header into a blackhole:
tag `KK_TAG_LAZY_EVAL` and scan size zero. -/
def kk_block_blackholed (b : Block) : Block :=
  { b with tag := KK_TAG_LAZY_EVAL, scan_fsize := 0 }

/-- lazy.c lines 53-55: the state after `kk_block_alloc_copy` of the
block at `A` into the fresh address and the in-place blackholing of `A`. -/
def localPreCtx (ctx : Ctx) (A : Nat) (b : Block) : Ctx :=
  { ctx with
      heap := (ctx.nextFresh, kk_block_alloc_copy b) :: hSet ctx.heap A (kk_block_blackholed b),
      nextFresh := ctx.nextFresh + 1 }

/-- lazy.c lines 68-70 and lazy.h lines 77-78: overwrite a block into an
indirection: field 0 the boxed result, scan size 1, tag `KK_TAG_LAZY_IND`. -/
def kk_block_as_indirection (b : Block) (res : Val) : Block :=
  { b with fields := b.fields.set 0 res, scan_fsize := 1, tag := KK_TAG_LAZY_IND }

/-- lazy.c lines 35-72: `kk_lazy_eval_local`: force a lazy block that is
referenced but not thread-shared.  A blackhole is returned as-is; otherwise
the block is copied, the original blackholed, the evaluator run on the
copy; a yielding evaluator is a fatal `ENOTSUP`; otherwise the original
becomes an indirection (field 0 the boxed result, scan size 1, tag
`KK_TAG_LAZY_IND`). -/
def kk_lazy_eval_local (A : Nat) (e : EvalFn) (ctx : Ctx) : LRes :=
  match hGet ctx.heap A with
  | none => LRes.stuck
  | some b =>
    if b.tag = KK_TAG_LAZY_EVAL then
      LRes.ok ctx (Val.ptr A)
    else
      match kk_function_call e (Val.ptr ctx.nextFresh) (localPreCtx ctx A b) with
      | LRes.ok ctx2 res =>
        if ctx2.yielding then LRes.fatal ENOTSUP ctx2
        else
          match hGet ctx2.heap A with
          | none => LRes.stuck
          | some b2 =>
            LRes.ok { ctx2 with heap := hSet ctx2.heap A (kk_block_as_indirection b2 res) } (Val.ptr A)
      | r => r

/-- lazy.c lines 75-85: `kk_lazy_eval_thread_shared` is a stub that
delegates to the local evaluator. -/
def kk_lazy_eval_thread_shared (A : Nat) (e : EvalFn) (ctx : Ctx) : LRes :=
  kk_lazy_eval_local A e ctx

/-- Modelled from the spec: `kk_datatype_dup` on a boxed value: a no-op on
immediates, a refcount increment on a pointer's block. -/
def kk_datatype_dup (ctx : Ctx) (v : Val) : Option Ctx :=
  match v with
  | Val.imm _ => some ctx
  | Val.ptr a =>
    match hGet ctx.heap a with
    | none => none
    | some blk => some { ctx with heap := hSet ctx.heap a ({ blk with rc := blk.rc + 1 }) }

/-- lazy.c lines 96-106: chasing an indirection in the driver loop: read
field 0; when the refcount is zero free the block (the forwarded value
inherits the block's reference), otherwise dup the forwarded value and
decref the block. -/
def lazyChaseInd (A : Nat) (ctx : Ctx) (b : Block) : LRes :=
  match b.fields.head? with
  | none => LRes.stuck
  | some w =>
    if b.rc = 0 && !b.threadShared then
      LRes.ok { ctx with heap := hFree ctx.heap A } w
    else
      match kk_datatype_dup ctx w with
      | none => LRes.stuck
      | some ctxd =>
        match hGet ctxd.heap A with
        | none => LRes.stuck
        | some bA =>
          LRes.ok { ctxd with heap := hSet ctxd.heap A ({ bA with rc := bA.rc - 1 }) } w

/-- lazy.c lines 107-126: the dispatch of the driver loop on a block not
carried as an indirection: evaluate by the unique / thread-shared / local
path depending on the refcount and abort when the evaluator yielded
(the `kk_function_static_dup` of the evaluator is a no-op). -/
def lazyDispatch (e : EvalFn) (A : Nat) (ctx : Ctx) (b : Block) : LRes :=
  match
    (if b.rc = 0 && !b.threadShared then kk_lazy_eval_unique A e ctx
     else if b.threadShared then kk_lazy_eval_thread_shared A e ctx
     else kk_lazy_eval_local A e ctx) with
  | LRes.ok ctx2 v2 => if ctx2.yielding then LRes.fatal ENOTSUP ctx2 else LRes.ok ctx2 v2
  | r => r

/-- One iteration of the driver loop body before the loop-control checks:
chase an indirection or dispatch to an evaluation path. -/
def lazyLoopStep (e : EvalFn) (A tag : Nat) (ctx : Ctx) (b : Block) : LRes :=
  if tag = KK_TAG_LAZY_IND then lazyChaseInd A ctx b else lazyDispatch e A ctx b

/-- lazy.c lines 94-135: the do-while loop of `kk_datatype_lazy_eval`,
with the remaining iteration count as fuel.  `A` is the current block
pointer `b` and `tag` the tag variable as carried by the loop.  Each
iteration runs `lazyLoopStep` and then the loop-control checks: stop on a
non-pointer, stop when the dispatched block is returned still tagged as a
blackhole, continue while the (re-read) tag is lazy. -/
def kk_lazy_eval_loop : Nat → EvalFn → Nat → Nat → Ctx → LRes
  | 0, _, _, _, _ => LRes.timeout
  | fuel + 1, e, A, tag, ctx =>
    match hGet ctx.heap A with
    | none => LRes.stuck
    | some b =>
      match lazyLoopStep e A tag ctx b with
      | LRes.ok ctx2 next =>
        match next with
        | Val.imm _ => LRes.ok ctx2 next
        | Val.ptr nA =>
          match hGet ctx2.heap nA with
          | none => LRes.stuck
          | some nb =>
            if nA = A && nb.tag = KK_TAG_LAZY_EVAL then LRes.ok ctx2 next
            else if kk_tag_is_lazy nb.tag then kk_lazy_eval_loop fuel e nA nb.tag ctx2
            else LRes.ok ctx2 next
      | r => r

/-- lazy.c lines 89-138: `kk_datatype_lazy_eval`: read the head block and
its tag and enter the forcing loop (the `kk_datatype_is_lazy` assert is
debug-only; dereferencing a non-pointer is undefined behaviour). -/
def kk_datatype_lazy_eval (fuel : Nat) (next : Val) (e : EvalFn) (ctx : Ctx) : LRes :=
  match next with
  | Val.imm _ => LRes.stuck
  | Val.ptr A =>
    match hGet ctx.heap A with
    | none => LRes.stuck
    | some b => kk_lazy_eval_loop fuel e A b.tag ctx

/-- lazy.h lines 45-54: `kk_datatype_lazy_force`: return the value
unchanged unless the fast lazy-or-special test fires, then force. -/
def kk_datatype_lazy_force (fuel : Nat) (d : Val) (e : EvalFn) (ctx : Ctx) : LRes :=
  match d with
  | Val.imm _ => LRes.ok ctx d
  | Val.ptr A =>
    match hGet ctx.heap A with
    | none => LRes.stuck
    | some b =>
      if kk_block_is_lazy_or_special b then kk_datatype_lazy_eval fuel d e ctx
      else LRes.ok ctx d

/-- lazy.h lines 70-81: `kk_lazy_indirect`: if the target block is
uniquely owned free it and return the result, else mutate it in place
into an indirection (scan size 1, tag `KK_TAG_LAZY_IND`, field 0 the boxed
result) and return the target. -/
def kk_lazy_indirect (target vres : Val) (ctx : Ctx) : Option (Ctx × Val) :=
  match target with
  | Val.imm _ => none
  | Val.ptr A =>
    match hGet ctx.heap A with
    | none => none
    | some b =>
      if kk_block_is_unique b then
        some ({ ctx with heap := hFree ctx.heap A }, vres)
      else
        some ({ ctx with heap := hSet ctx.heap A (kk_block_as_indirection b vres) }, target)

/- ### C3: blackhole detection and recursive forcing -/

/-- The self-forcing evaluator family: at index `m + 1` the evaluator
re-forces its own argument, running the force driver at fuel `m` with the
evaluator at index `m` (a fuel-truncated fixed point of
`e(x) = force(x, e)`). -/
def selfEval : Nat → EvalFn
  | 0 => fun _ _ => LRes.timeout
  | m + 1 => fun ctx v => kk_datatype_lazy_force m v (selfEval m) ctx

/-- Termination of `force` on a value for a fuel-indexed family of
evaluators: some driver fuel and some evaluator index produce a result
that is not fuel exhaustion. -/
def ForceTerminates (efam : Nat → EvalFn) (v : Val) (ctx : Ctx) : Prop :=
  ∃ n m, kk_datatype_lazy_force n v (efam m) ctx ≠ LRes.timeout

/-- A uniquely owned (refcount zero) lazy thunk at address 0. -/
def c3Heap : Heap := [(0, ⟨44, 1, 0, false, [Val.imm 0]⟩)]

/-- The initial context owning only the unique thunk of `c3Heap`. -/
def c3Ctx : Ctx :=
  { heap := c3Heap, nextFresh := 1, yielding := false, evalCount := 0, calls := [] }

/- ### Settling step of the driver loop -/

/-- The context after a unique-path force whose evaluator returned with
heap `h2` and allocation cursor `f2`: exactly the evaluator's output
state, with the single recorded call on the block pointer. -/
def uniqueOutCtx (ctx : Ctx) (A : Nat) (h2 : Heap) (f2 : Nat) : Ctx :=
  { (lazyCallCtx ctx (Val.ptr A)) with heap := h2, nextFresh := f2 }

/-- A constant evaluator returning the immediate 42 and leaving the
runtime state unchanged. -/
def c1e : EvalFn := fun c _ => LRes.ok c (Val.imm 42)

/-- A shared (refcount 1) lazy thunk block with one field. -/
def c1b : Block := ⟨44, 1, 1, false, [Val.imm 0]⟩

/-- Start context for the memoization witness: the thunk alone at 0. -/
def c1start : Ctx :=
  { heap := [(0, c1b)], nextFresh := 1, yielding := false, evalCount := 0, calls := [] }

/-- The context seen and returned by `c1e` during the first force. -/
def c1mid : Ctx := lazyCallCtx (localPreCtx c1start 0 c1b) (Val.ptr 1)

/-- The yielding evaluator used by the yield witnesses. -/
def c8e : EvalFn := fun c _ => LRes.ok ({ c with yielding := true }) (Val.imm 0)

/-- A shared thunk block for the yield witnesses. -/
def c8b : Block := ⟨44, 1, 1, false, [Val.imm 0]⟩

/-- Start context for the yield witnesses. -/
def c8start : Ctx :=
  { heap := [(0, c8b)], nextFresh := 1, yielding := false, evalCount := 0, calls := [] }

/-- The yielded output context of `c8e` during the force of `c8b`. -/
def c8mid : Ctx :=
  { (lazyCallCtx (localPreCtx c8start 0 c8b) (Val.ptr 1)) with yielding := true }

/-- An evaluator that consults a flag block at address 1: while the flag
tag is 0 it sets the flag and returns its argument unchanged; afterwards
it returns the immediate 7. -/
def c5e : EvalFn := fun ctx v =>
  match hGet ctx.heap 1 with
  | some fl =>
    if fl.tag = 0 then LRes.ok ({ ctx with heap := hSet ctx.heap 1 ({ fl with tag := 1 }) }) v
    else LRes.ok ctx (Val.imm 7)
  | none => LRes.ok ctx (Val.imm 9)

/-- Start context of the C5 counterexample: a refcount-zero blackhole at
address 0 and the flag block at address 1. -/
def c5start : Ctx :=
  { heap := [(0, ⟨KK_TAG_LAZY_EVAL, 0, 0, false, [Val.imm 0]⟩), (1, ⟨0, 0, 0, false, []⟩)],
    nextFresh := 2, yielding := false, evalCount := 0, calls := [] }

/-- State after the first force of the C5 counterexample. -/
def c5mid : Ctx :=
  { heap := [(0, ⟨KK_TAG_LAZY_EVAL, 0, 0, false, [Val.imm 0]⟩), (1, ⟨1, 0, 0, false, []⟩)],
    nextFresh := 2, yielding := false, evalCount := 1, calls := [Val.ptr 0] }

/-- A shared (refcount 1) blackhole for the C5 witness. -/
def c5w : Ctx :=
  { heap := [(0, ⟨KK_TAG_LAZY_EVAL, 0, 1, false, [Val.imm 0]⟩)], nextFresh := 1,
    yielding := false, evalCount := 0, calls := [] }

/- ### C4: reference-count accounting -/

/-- References to address `a` held by one block: occurrences of
`Val.ptr a` among its first `scan_fsize` (managed) fields. -/
def blockRefs (a : Nat) (blk : Block) : Nat :=
  ((blk.fields.take blk.scan_fsize).map (fun v => if v = Val.ptr a then 1 else 0)).sum

/-- References to `a` held by all blocks of the heap. -/
def heapRefs (a : Nat) (h : Heap) : Nat :=
  (h.map (fun p => blockRefs a p.2)).sum

/-- References to `a` among a list of owned root values. -/
def rootRefs (a : Nat) (roots : List Val) : Nat :=
  (roots.map (fun v => if v = Val.ptr a then 1 else 0)).sum

/-- A value points only below the allocation cursor `n`. -/
def valBound (n : Nat) : Val → Prop
  | Val.imm _ => True
  | Val.ptr a => a < n

instance (n : Nat) (v : Val) : Decidable (valBound n v) :=
  match v with
  | Val.imm _ => isTrue trivial
  | Val.ptr a => Nat.decLt a n

/-- The reference-count invariant of the local (single-threaded) force
protocol, for a context together with the owned root values: heap keys
are unique and below the allocation cursor, no block is thread-shared,
every stored value and root points below the cursor, lazy blocks have at
least one field, indirections have scan size 1, and each block's
refcount plus one equals the number of references to it from scanned
heap fields and from the roots. -/
def RcInv (ctx : Ctx) (roots : List Val) : Prop :=
  (ctx.heap.map Prod.fst).Nodup ∧
  (∀ p ∈ ctx.heap, p.1 < ctx.nextFresh ∧
    p.2.threadShared = false ∧
    (∀ v ∈ p.2.fields, valBound ctx.nextFresh v) ∧
    (kk_tag_is_lazy p.2.tag = true → p.2.fields ≠ []) ∧
    (p.2.tag = KK_TAG_LAZY_IND → p.2.scan_fsize = 1) ∧
    p.2.rc + 1 = heapRefs p.1 ctx.heap + rootRefs p.1 roots) ∧
  (∀ v ∈ roots, valBound ctx.nextFresh v)

/-- A refcount-correct evaluator: it consumes ownership of its argument
and returns ownership of its result, preserving the invariant, and it
leaves every blackholed block in place, changed at most in its
refcount (a blackhole is opaque: only the forcing driver that installed
it writes its header or fields). -/
def EvalOK (e : EvalFn) : Prop :=
  ∀ ctx v R ctx' v', RcInv ctx (v :: R) → e ctx v = LRes.ok ctx' v' →
    RcInv ctx' (v' :: R) ∧
    (∀ a blk, hGet ctx.heap a = some blk → blk.tag = KK_TAG_LAZY_EVAL →
      ∃ rc2, hGet ctx'.heap a = some ({ blk with rc := rc2 }))

/-- lazy.h lines 30-33: `kk_datatype_is_lazy`. -/
def kk_datatype_is_lazy (ctx : Ctx) (d : Val) : Bool :=
  match d with
  | Val.imm _ => false
  | Val.ptr a =>
    match hGet ctx.heap a with
    | none => false
    | some b => kk_block_is_lazy b

instance (ctx : Ctx) (roots : List Val) : Decidable (RcInv ctx roots) := by
  unfold RcInv
  infer_instance

/- ### Heap lemmas -/

theorem hGet_hSet_self {h : Heap} {a : Nat} {b : Block} (hs : hGet h a = some b) (blk : Block) :
    hGet (hSet h a blk) a = some blk := by
  induction h with
  | nil => simp [hGet] at hs
  | cons p t ih =>
    by_cases hp : p.1 = a
    · simp [hGet, hSet, hp]
    · simp only [hGet, hSet, List.map_cons, hp, if_neg hp, if_false] at hs ⊢
      exact ih hs

theorem hGet_hSet_ne {h : Heap} {a c : Nat} (hne : c ≠ a) (blk : Block) :
    hGet (hSet h a blk) c = hGet h c := by
  induction h with
  | nil => simp [hGet, hSet]
  | cons p t ih =>
    by_cases hp : p.1 = a
    · have hac : ¬ (a = c) := fun h0 => hne h0.symm
      have hpc : ¬ (p.1 = c) := fun h0 => hne (h0 ▸ hp)
      simp only [hSet, List.map_cons, if_pos hp, hGet, if_neg hac, if_neg hpc]
      exact ih
    · simp only [hSet, List.map_cons, if_neg hp, hGet]
      by_cases hc : p.1 = c
      · simp [hc]
      · simp only [if_neg hc]
        exact ih

theorem hGet_hFree_self (h : Heap) (a : Nat) : hGet (hFree h a) a = none := by
  induction h with
  | nil => simp [hGet, hFree]
  | cons p t ih =>
    by_cases hp : p.1 = a
    · simp only [hFree, if_pos hp]
      exact ih
    · simp only [hFree, if_neg hp, hGet, if_neg hp]
      exact ih

theorem hGet_hFree_ne {h : Heap} {a c : Nat} (hne : c ≠ a) :
    hGet (hFree h a) c = hGet h c := by
  induction h with
  | nil => simp [hGet, hFree]
  | cons p t ih =>
    by_cases hp : p.1 = a
    · have hpc : ¬ (p.1 = c) := fun h0 => hne (h0 ▸ hp)
      simp only [hFree, if_pos hp, hGet, if_neg hpc]
      exact ih
    · by_cases hc : p.1 = c
      · simp only [hFree, if_neg hp, hGet, if_pos hc]
      · simp only [hFree, if_neg hp, hGet, if_neg hc]
        exact ih

/- ### C7: the indirect helper -/

/-- C7: `kk_lazy_indirect(target, result)` frees the target block and
returns the result when the block is uniquely owned; otherwise it mutates
the block in place into a `KK_TAG_LAZY_IND` block with scan size 1 whose
field 0 holds the boxed result and returns the target. -/
theorem c7_lazy_indirect (A : Nat) (vres : Val) (ctx : Ctx) (b : Block)
    (hA : hGet ctx.heap A = some b) (hfld : b.fields ≠ []) :
    (kk_block_is_unique b = true →
      kk_lazy_indirect (Val.ptr A) vres ctx = some ({ ctx with heap := hFree ctx.heap A }, vres)) ∧
    (kk_block_is_unique b = false →
      kk_lazy_indirect (Val.ptr A) vres ctx =
        some ({ ctx with heap := hSet ctx.heap A (kk_block_as_indirection b vres) }, Val.ptr A) ∧
      hGet (hSet ctx.heap A (kk_block_as_indirection b vres)) A =
        some (kk_block_as_indirection b vres) ∧
      (kk_block_as_indirection b vres).tag = KK_TAG_LAZY_IND ∧
      (kk_block_as_indirection b vres).scan_fsize = 1 ∧
      (kk_block_as_indirection b vres).fields.head? = some vres) := by
  constructor
  · intro hu
    simp [kk_lazy_indirect, hA, hu]
  · intro hu
    refine ⟨by simp [kk_lazy_indirect, hA, hu], hGet_hSet_self hA _, rfl, rfl, ?_⟩
    match b with
    | ⟨t, s, r, ts, []⟩ => exact absurd rfl hfld
    | ⟨t, s, r, ts, f0 :: fs⟩ => simp [kk_block_as_indirection, List.set]

/-- Witness for C7 at a concrete shared indirection target. -/
theorem c7_lazy_indirect_witness :
    kk_lazy_indirect (Val.ptr 0) (Val.imm 9)
        { heap := [(0, ⟨44, 1, 1, false, [Val.imm 0]⟩)], nextFresh := 1,
          yielding := false, evalCount := 0, calls := [] } =
      some ({ heap := [(0, ⟨KK_TAG_LAZY_IND, 1, 1, false, [Val.imm 9]⟩)], nextFresh := 1,
              yielding := false, evalCount := 0, calls := [] }, Val.ptr 0) :=
  ((c7_lazy_indirect 0 (Val.imm 9)
      { heap := [(0, ⟨44, 1, 1, false, [Val.imm 0]⟩)], nextFresh := 1,
        yielding := false, evalCount := 0, calls := [] }
      ⟨44, 1, 1, false, [Val.imm 0]⟩ (by decide) (by decide)).2 (by decide)).1

/- ### The driver postcondition -/

theorem lazy_eval_loop_post (e : EvalFn) :
    ∀ (fuel A tag : Nat) (ctx ctx' : Ctx) (r : Val),
      kk_lazy_eval_loop fuel e A tag ctx = LRes.ok ctx' r →
      (∃ k, r = Val.imm k) ∨
      (∃ B blk, r = Val.ptr B ∧ hGet ctx'.heap B = some blk ∧
        (kk_tag_is_lazy blk.tag = false ∨ blk.tag = KK_TAG_LAZY_EVAL)) := by
  intro fuel
  induction fuel with
  | zero =>
    intro A tag ctx ctx' r h
    simp [kk_lazy_eval_loop] at h
  | succ n ih =>
    intro A tag ctx ctx' r h
    rw [kk_lazy_eval_loop] at h
    cases hb : hGet ctx.heap A with
    | none => simp [hb] at h
    | some b =>
      simp only [hb] at h
      cases hs : lazyLoopStep e A tag ctx b with
      | ok ctx2 next =>
        simp only [hs] at h
        cases next with
        | imm k =>
          cases h
          exact Or.inl ⟨k, rfl⟩
        | ptr nA =>
          cases hn : hGet ctx2.heap nA with
          | none => simp [hn] at h
          | some nb =>
            simp only [hn] at h
            by_cases hbh : nA = A ∧ nb.tag = KK_TAG_LAZY_EVAL
            · rw [if_pos (by simp [hbh.1, hbh.2])] at h
              cases h
              exact Or.inr ⟨nA, nb, rfl, hn, Or.inr hbh.2⟩
            · rw [if_neg (by simpa using hbh)] at h
              by_cases hlz : kk_tag_is_lazy nb.tag = true
              · rw [if_pos hlz] at h
                exact ih nA nb.tag ctx2 ctx' r h
              · rw [if_neg hlz] at h
                cases h
                exact Or.inr ⟨nA, nb, rfl, hn, Or.inl (by simpa using hlz)⟩
      | fatal err c2 => simp [hs] at h
      | timeout => simp [hs] at h
      | stuck => simp [hs] at h

/-- C2: whenever the force driver returns normally, the returned value is
a non-pointer, or a pointer to a block whose tag is outside the lazy
range, or a pointer to a blackhole tagged `KK_TAG_LAZY_EVAL`; in
particular it never points to a block tagged `KK_TAG_LAZY_IND`. -/
theorem c2_force_postcondition (fuel : Nat) (v : Val) (e : EvalFn) (ctx ctx' : Ctx) (r : Val)
    (h : kk_datatype_lazy_eval fuel v e ctx = LRes.ok ctx' r) :
    ((∃ k, r = Val.imm k) ∨
      (∃ B blk, r = Val.ptr B ∧ hGet ctx'.heap B = some blk ∧
        (kk_tag_is_lazy blk.tag = false ∨ blk.tag = KK_TAG_LAZY_EVAL))) ∧
    (∀ B blk, r = Val.ptr B → hGet ctx'.heap B = some blk → blk.tag ≠ KK_TAG_LAZY_IND) := by
  match v with
  | Val.imm k => simp [kk_datatype_lazy_eval] at h
  | Val.ptr A =>
    rw [kk_datatype_lazy_eval] at h
    cases hb : hGet ctx.heap A with
    | none => simp [hb] at h
    | some b =>
      simp only [hb] at h
      have htri := lazy_eval_loop_post e fuel A b.tag ctx ctx' r h
      refine ⟨htri, ?_⟩
      intro B blk hrB hB hind
      rcases htri with ⟨k, hk⟩ | ⟨B', blk', hrB', hB', hdisj⟩
      · rw [hk] at hrB; cases hrB
      · rw [hrB'] at hrB
        cases hrB
        rw [hB'] at hB
        cases hB
        rcases hdisj with hnl | hev
        · rw [hind] at hnl
          simp [kk_tag_is_lazy, KK_TAG_LAZY, KK_TAG_LAZY_IND] at hnl
        · rw [hind] at hev
          simp [KK_TAG_LAZY_EVAL, KK_TAG_LAZY_IND] at hev

/-- Witness for C2: forcing a concrete refcount-zero indirection chain
ending in an immediate returns that immediate. -/
theorem c2_force_postcondition_witness :
    ((∃ k, Val.imm 7 = Val.imm k) ∨
      (∃ B blk, Val.imm 7 = Val.ptr B ∧
        hGet ({ heap := ([] : Heap), nextFresh := 1, yielding := false, evalCount := 0,
                calls := [] : Ctx }).heap B = some blk ∧
        (kk_tag_is_lazy blk.tag = false ∨ blk.tag = KK_TAG_LAZY_EVAL))) ∧
    (∀ B blk, Val.imm 7 = Val.ptr B →
      hGet ({ heap := ([] : Heap), nextFresh := 1, yielding := false, evalCount := 0,
              calls := [] : Ctx }).heap B = some blk →
      blk.tag ≠ KK_TAG_LAZY_IND) :=
  c2_force_postcondition 1 (Val.ptr 0) (fun _ _ => LRes.timeout)
    { heap := [(0, ⟨KK_TAG_LAZY_IND, 1, 0, false, [Val.imm 7]⟩)], nextFresh := 1,
      yielding := false, evalCount := 0, calls := [] }
    { heap := [], nextFresh := 1, yielding := false, evalCount := 0, calls := [] }
    (Val.imm 7) (by decide)

/- ### Yielding is not set by a normally returning force -/

theorem kk_datatype_dup_yielding {ctx c : Ctx} {w : Val} (h : kk_datatype_dup ctx w = some c) :
    c.yielding = ctx.yielding := by
  cases w with
  | imm n =>
    rw [kk_datatype_dup] at h
    cases h
    rfl
  | ptr a =>
    rw [kk_datatype_dup] at h
    cases hb : hGet ctx.heap a with
    | none => simp [hb] at h
    | some blk =>
      simp only [hb] at h
      cases h
      rfl

theorem lazyChaseInd_ok_yielding {A : Nat} {ctx c2 : Ctx} {b : Block} {v : Val}
    (h : lazyChaseInd A ctx b = LRes.ok c2 v) : c2.yielding = ctx.yielding := by
  rw [lazyChaseInd] at h
  cases hw : b.fields.head? with
  | none => simp [hw] at h
  | some w =>
    simp only [hw] at h
    by_cases hrc : (b.rc = 0 && !b.threadShared) = true
    · rw [if_pos hrc] at h
      cases h
      rfl
    · rw [if_neg hrc] at h
      cases hd : kk_datatype_dup ctx w with
      | none => simp [hd] at h
      | some ctxd =>
        simp only [hd] at h
        cases hA : hGet ctxd.heap A with
        | none => simp [hA] at h
        | some bA =>
          simp only [hA] at h
          cases h
          simpa using kk_datatype_dup_yielding hd

theorem lazyDispatch_ok_yielding {e : EvalFn} {A : Nat} {ctx c2 : Ctx} {b : Block} {v : Val}
    (h : lazyDispatch e A ctx b = LRes.ok c2 v) : c2.yielding = false := by
  rw [lazyDispatch] at h
  split at h
  · split at h
    · exact absurd h (by simp)
    · rename_i hy
      cases h
      simpa using hy
  · rename_i hne
    exact (hne c2 v h).elim

theorem lazyLoopStep_ok_yielding {e : EvalFn} {A tag : Nat} {ctx c2 : Ctx} {b : Block} {v : Val}
    (hy : ctx.yielding = false) (h : lazyLoopStep e A tag ctx b = LRes.ok c2 v) :
    c2.yielding = false := by
  rw [lazyLoopStep] at h
  split at h
  · rw [lazyChaseInd_ok_yielding h]
    exact hy
  · exact lazyDispatch_ok_yielding h

theorem lazy_eval_loop_ok_yielding (e : EvalFn) :
    ∀ (fuel A tag : Nat) (ctx ctx' : Ctx) (r : Val), ctx.yielding = false →
      kk_lazy_eval_loop fuel e A tag ctx = LRes.ok ctx' r → ctx'.yielding = false := by
  intro fuel
  induction fuel with
  | zero =>
    intro A tag ctx ctx' r hy h
    simp [kk_lazy_eval_loop] at h
  | succ n ih =>
    intro A tag ctx ctx' r hy h
    rw [kk_lazy_eval_loop] at h
    cases hb : hGet ctx.heap A with
    | none => simp [hb] at h
    | some b =>
      simp only [hb] at h
      cases hs : lazyLoopStep e A tag ctx b with
      | ok ctx2 next =>
        simp only [hs] at h
        have hy2 := lazyLoopStep_ok_yielding hy hs
        cases next with
        | imm k =>
          cases h
          exact hy2
        | ptr nA =>
          cases hn : hGet ctx2.heap nA with
          | none => simp [hn] at h
          | some nb =>
            simp only [hn] at h
            by_cases hbh : (decide (nA = A) && decide (nb.tag = KK_TAG_LAZY_EVAL)) = true
            · rw [if_pos hbh] at h
              cases h
              exact hy2
            · rw [if_neg hbh] at h
              by_cases hlz : kk_tag_is_lazy nb.tag = true
              · rw [if_pos hlz] at h
                exact ih nA nb.tag ctx2 ctx' r hy2 h
              · rw [if_neg hlz] at h
                cases h
                exact hy2
      | fatal err c => simp [hs] at h
      | timeout => simp [hs] at h
      | stuck => simp [hs] at h

theorem lazy_eval_ok_yielding {fuel : Nat} {v : Val} {e : EvalFn} {ctx ctx' : Ctx} {r : Val}
    (hy : ctx.yielding = false) (h : kk_datatype_lazy_eval fuel v e ctx = LRes.ok ctx' r) :
    ctx'.yielding = false := by
  cases v with
  | imm k => simp [kk_datatype_lazy_eval] at h
  | ptr A =>
    rw [kk_datatype_lazy_eval] at h
    cases hb : hGet ctx.heap A with
    | none => simp [hb] at h
    | some b =>
      simp only [hb] at h
      exact lazy_eval_loop_ok_yielding e fuel A b.tag ctx ctx' r hy h

theorem lazy_force_ok_yielding {fuel : Nat} {v : Val} {e : EvalFn} {ctx ctx' : Ctx} {r : Val}
    (hy : ctx.yielding = false) (h : kk_datatype_lazy_force fuel v e ctx = LRes.ok ctx' r) :
    ctx'.yielding = false := by
  cases v with
  | imm k =>
    rw [kk_datatype_lazy_force] at h
    cases h
    exact hy
  | ptr A =>
    rw [kk_datatype_lazy_force] at h
    cases hb : hGet ctx.heap A with
    | none => simp [hb] at h
    | some b =>
      simp only [hb] at h
      by_cases hsp : kk_block_is_lazy_or_special b = true
      · rw [if_pos hsp] at h
        exact lazy_eval_ok_yielding hy h
      · rw [if_neg hsp] at h
        cases h
        exact hy

theorem selfEval_timeout :
    ∀ (m n : Nat) (ctx : Ctx), ctx.heap = c3Heap →
      kk_datatype_lazy_force n (Val.ptr 0) (selfEval m) ctx = LRes.timeout := by
  have hrun : ∀ (m : Nat) (n : Nat) (ctx : Ctx), ctx.heap = c3Heap →
      (∀ c : Ctx, c.heap = c3Heap →
        selfEval m (lazyCallCtx c (Val.ptr 0)) (Val.ptr 0) = LRes.timeout) →
      kk_datatype_lazy_force n (Val.ptr 0) (selfEval m) ctx = LRes.timeout := by
    intro m n ctx hh hcall
    cases n with
    | zero =>
      simp [kk_datatype_lazy_force, hh, c3Heap, hGet, kk_block_is_lazy_or_special,
        KK_TAG_LAZY, kk_datatype_lazy_eval, kk_lazy_eval_loop]
    | succ fuel =>
      have hc := hcall ctx hh
      simp [kk_datatype_lazy_force, hh, c3Heap, hGet, kk_block_is_lazy_or_special,
        KK_TAG_LAZY, kk_datatype_lazy_eval, kk_lazy_eval_loop, lazyLoopStep,
        KK_TAG_LAZY_IND, lazyDispatch, kk_lazy_eval_unique, kk_function_call, hc]
  intro m
  induction m with
  | zero =>
    intro n ctx hh
    exact hrun 0 n ctx hh (fun c hc => rfl)
  | succ k ih =>
    intro n ctx hh
    refine hrun (k + 1) n ctx hh (fun c hc => ?_)
    exact ih k (lazyCallCtx c (Val.ptr 0)) (by simpa [lazyCallCtx] using hc)

/-- C3 counterexample: for the evaluator that re-forces its own argument,
forcing a uniquely owned thunk never terminates: the unique dispatch
passes the block itself back to the evaluator, which re-enters the driver
without any blackhole being installed, for every amount of fuel. -/
theorem c3_counterexample : ¬ ForceTerminates selfEval (Val.ptr 0) c3Ctx := by
  intro hterm
  rcases hterm with ⟨n, m, hne⟩
  exact hne (selfEval_timeout m n c3Ctx rfl)

/-- C3 (amended): when the recursive re-force reaches the thunk through a
shared reference the blackhole mechanism terminates it: a block already
tagged `KK_TAG_LAZY_EVAL` whose refcount word is nonzero is returned
unchanged by the local path without invoking the evaluator (the context,
hence the ghost call instrumentation, is untouched), and the driver stops
immediately on seeing the dispatched block returned still tagged as a
blackhole. -/
theorem c3_blackhole_short_circuit (n : Nat) (e : EvalFn) (A : Nat) (ctx : Ctx) (b : Block)
    (hA : hGet ctx.heap A = some b) (htag : b.tag = KK_TAG_LAZY_EVAL)
    (hrc : (b.rc = 0 && !b.threadShared) = false) (hy : ctx.yielding = false) :
    kk_lazy_eval_local A e ctx = LRes.ok ctx (Val.ptr A) ∧
    kk_datatype_lazy_eval (n + 1) (Val.ptr A) e ctx = LRes.ok ctx (Val.ptr A) := by
  have hloc : kk_lazy_eval_local A e ctx = LRes.ok ctx (Val.ptr A) := by
    rw [kk_lazy_eval_local]
    simp only [hA]
    rw [if_pos htag]
  refine ⟨hloc, ?_⟩
  rw [kk_datatype_lazy_eval]
  simp only [hA]
  rw [kk_lazy_eval_loop]
  simp only [hA]
  have hstep : lazyLoopStep e A b.tag ctx b = LRes.ok ctx (Val.ptr A) := by
    rw [lazyLoopStep, if_neg (by simp [htag, KK_TAG_LAZY_EVAL, KK_TAG_LAZY_IND])]
    rw [lazyDispatch]
    rw [if_neg (by simp [hrc])]
    cases hts : b.threadShared with
    | true =>
      rw [if_pos rfl]
      rw [kk_lazy_eval_thread_shared, hloc]
      simp [hy]
    | false =>
      rw [if_neg (by simp)]
      rw [hloc]
      simp [hy]
  rw [hstep]
  simp only [hA]
  rw [if_pos (by simp [htag])]

/-- Witness for the amended C3 at a concrete shared blackhole. -/
theorem c3_blackhole_short_circuit_witness :
    kk_datatype_lazy_eval 1 (Val.ptr 0) (fun _ _ => LRes.timeout)
        { heap := [(0, ⟨KK_TAG_LAZY_EVAL, 0, 1, false, [Val.imm 0]⟩)], nextFresh := 1,
          yielding := false, evalCount := 0, calls := [] } =
      LRes.ok
        { heap := [(0, ⟨KK_TAG_LAZY_EVAL, 0, 1, false, [Val.imm 0]⟩)], nextFresh := 1,
          yielding := false, evalCount := 0, calls := [] } (Val.ptr 0) :=
  (c3_blackhole_short_circuit 0 (fun _ _ => LRes.timeout) 0
    { heap := [(0, ⟨KK_TAG_LAZY_EVAL, 0, 1, false, [Val.imm 0]⟩)], nextFresh := 1,
      yielding := false, evalCount := 0, calls := [] }
    ⟨KK_TAG_LAZY_EVAL, 0, 1, false, [Val.imm 0]⟩
    (by decide) rfl (by decide) rfl).2

theorem lazy_eval_loop_settle (n : Nat) (e : EvalFn) (A tag : Nat) (ctx ctx2 : Ctx) (b : Block)
    (w : Val) (hb : hGet ctx.heap A = some b)
    (hs : lazyLoopStep e A tag ctx b = LRes.ok ctx2 w)
    (hw : (∃ k, w = Val.imm k) ∨
      (∃ B blk, w = Val.ptr B ∧ hGet ctx2.heap B = some blk ∧ kk_tag_is_lazy blk.tag = false)) :
    kk_lazy_eval_loop (n + 1) e A tag ctx = LRes.ok ctx2 w := by
  rw [kk_lazy_eval_loop]
  simp only [hb, hs]
  rcases hw with ⟨k, rfl⟩ | ⟨B, blk, rfl, hB, hnl⟩
  · rfl
  · simp only [hB]
    have hne : ¬ (blk.tag = KK_TAG_LAZY_EVAL) := by
      intro hh
      rw [hh] at hnl
      simp [kk_tag_is_lazy, KK_TAG_LAZY, KK_TAG_LAZY_EVAL] at hnl
    rw [if_neg (by simp [hne])]
    rw [if_neg (by simp [hnl])]

/- ### C6: the unique fast path -/

/-- C6: forcing a lazy non-blackhole block with refcount zero dispatches
to the unique path, which invokes the evaluator exactly once with a boxed
pointer to the block itself and returns the unboxed result directly: the
final state is exactly the evaluator's output state (no blackhole
installed, no indirection created, no mutation of the block by the path),
with exactly one recorded evaluator call, on `Val.ptr A`. -/
theorem c6_unique_fast_path (n : Nat) (e : EvalFn) (A : Nat) (ctx : Ctx) (b : Block)
    (h2 : Heap) (f2 : Nat) (w : Val)
    (hA : hGet ctx.heap A = some b)
    (hlazy : kk_tag_is_lazy b.tag = true)
    (hnbh : b.tag ≠ KK_TAG_LAZY_EVAL)
    (hnind : b.tag ≠ KK_TAG_LAZY_IND)
    (hrc : b.rc = 0) (hts : b.threadShared = false) (hy : ctx.yielding = false)
    (he : e (lazyCallCtx ctx (Val.ptr A)) (Val.ptr A) =
      LRes.ok { (lazyCallCtx ctx (Val.ptr A)) with heap := h2, nextFresh := f2 } w)
    (hw : (∃ k, w = Val.imm k) ∨
      (∃ B blk, w = Val.ptr B ∧ hGet h2 B = some blk ∧ kk_tag_is_lazy blk.tag = false)) :
    kk_datatype_lazy_eval (n + 1) (Val.ptr A) e ctx =
      LRes.ok (uniqueOutCtx ctx A h2 f2) w := by
  rw [kk_datatype_lazy_eval]
  simp only [hA]
  have hstep : lazyLoopStep e A b.tag ctx b = LRes.ok (uniqueOutCtx ctx A h2 f2) w := by
    rw [lazyLoopStep, if_neg hnind, lazyDispatch]
    rw [if_pos (by simp [hrc, hts])]
    rw [kk_lazy_eval_unique, kk_function_call, he]
    simp [uniqueOutCtx, lazyCallCtx, hy]
  exact lazy_eval_loop_settle n e A b.tag ctx _ b w hA hstep (by simpa using hw)

/-- Witness for C6: a unique thunk forced with a constant evaluator. -/
theorem c6_unique_fast_path_witness :
    kk_datatype_lazy_eval 1 (Val.ptr 0) (fun c _ => LRes.ok c (Val.imm 42))
        { heap := [(0, ⟨44, 1, 0, false, [Val.imm 0]⟩)], nextFresh := 1,
          yielding := false, evalCount := 0, calls := [] } =
      LRes.ok
        { heap := [(0, ⟨44, 1, 0, false, [Val.imm 0]⟩)], nextFresh := 1,
          yielding := false, evalCount := 1, calls := [Val.ptr 0] } (Val.imm 42) :=
  c6_unique_fast_path 0 (fun c _ => LRes.ok c (Val.imm 42)) 0
    { heap := [(0, ⟨44, 1, 0, false, [Val.imm 0]⟩)], nextFresh := 1,
      yielding := false, evalCount := 0, calls := [] }
    ⟨44, 1, 0, false, [Val.imm 0]⟩
    [(0, ⟨44, 1, 0, false, [Val.imm 0]⟩)] 1 (Val.imm 42)
    (by decide) (by decide) (by decide) (by decide) rfl rfl rfl rfl
    (Or.inl ⟨42, rfl⟩)

/- ### C10: no blackhole check on the unique dispatch -/

/-- C10: a block with refcount zero already tagged `KK_TAG_LAZY_EVAL` is
dispatched to the unique evaluation path, which invokes the
caller-supplied evaluator on the blackhole itself (the non-blackhole
precondition of the unique path is only a debug assertion): the driver
returns the evaluator's result, with the blackhole pointer recorded as the
evaluator's argument, instead of returning the blackhole unchanged as the
local path does for shared blocks. -/
theorem c10_unique_dispatch_on_blackhole (n : Nat) (e : EvalFn) (A : Nat) (ctx : Ctx) (b : Block)
    (h2 : Heap) (f2 : Nat) (k : Nat)
    (hA : hGet ctx.heap A = some b)
    (htag : b.tag = KK_TAG_LAZY_EVAL)
    (hrc : b.rc = 0) (hts : b.threadShared = false) (hy : ctx.yielding = false)
    (he : e (lazyCallCtx ctx (Val.ptr A)) (Val.ptr A) =
      LRes.ok { (lazyCallCtx ctx (Val.ptr A)) with heap := h2, nextFresh := f2 } (Val.imm k)) :
    kk_datatype_lazy_eval (n + 1) (Val.ptr A) e ctx =
      LRes.ok (uniqueOutCtx ctx A h2 f2) (Val.imm k) ∧
    (uniqueOutCtx ctx A h2 f2).calls = ctx.calls ++ [Val.ptr A] ∧
    (Val.imm k : Val) ≠ Val.ptr A := by
  refine ⟨?_, rfl, by simp⟩
  rw [kk_datatype_lazy_eval]
  simp only [hA]
  have hstep : lazyLoopStep e A b.tag ctx b = LRes.ok (uniqueOutCtx ctx A h2 f2) (Val.imm k) := by
    rw [lazyLoopStep, if_neg (by simp [htag, KK_TAG_LAZY_EVAL, KK_TAG_LAZY_IND]), lazyDispatch]
    rw [if_pos (by simp [hrc, hts])]
    rw [kk_lazy_eval_unique, kk_function_call, he]
    simp [uniqueOutCtx, lazyCallCtx, hy]
  exact lazy_eval_loop_settle n e A b.tag ctx _ b (Val.imm k) hA hstep (Or.inl ⟨k, rfl⟩)

/-- Witness for C10: forcing a concrete refcount-zero blackhole invokes
the evaluator on the blackhole itself. -/
theorem c10_unique_dispatch_on_blackhole_witness :
    kk_datatype_lazy_eval 1 (Val.ptr 0) (fun c _ => LRes.ok c (Val.imm 5))
        { heap := [(0, ⟨KK_TAG_LAZY_EVAL, 0, 0, false, [Val.imm 0]⟩)], nextFresh := 1,
          yielding := false, evalCount := 0, calls := [] } =
      LRes.ok
        { heap := [(0, ⟨KK_TAG_LAZY_EVAL, 0, 0, false, [Val.imm 0]⟩)], nextFresh := 1,
          yielding := false, evalCount := 1, calls := [Val.ptr 0] } (Val.imm 5) :=
  (c10_unique_dispatch_on_blackhole 0 (fun c _ => LRes.ok c (Val.imm 5)) 0
    { heap := [(0, ⟨KK_TAG_LAZY_EVAL, 0, 0, false, [Val.imm 0]⟩)], nextFresh := 1,
      yielding := false, evalCount := 0, calls := [] }
    ⟨KK_TAG_LAZY_EVAL, 0, 0, false, [Val.imm 0]⟩
    [(0, ⟨KK_TAG_LAZY_EVAL, 0, 0, false, [Val.imm 0]⟩)] 1 5
    (by decide) rfl rfl rfl rfl rfl).1

/- ### Chasing an installed indirection -/

theorem head_set_of_ne_nil {l : List Val} (h : l ≠ []) (v : Val) :
    (l.set 0 v).head? = some v := by
  cases l with
  | nil => exact absurd rfl h
  | cons x xs => rfl

theorem lazy_eval_loop_chase (m : Nat) (e : EvalFn) (A : Nat) (ctx : Ctx) (bI : Block) (res : Val)
    (hA : hGet ctx.heap A = some bI) (htag : bI.tag = KK_TAG_LAZY_IND)
    (hts : bI.threadShared = false) (hhead : bI.fields.head? = some res)
    (hres : (∃ k, res = Val.imm k) ∨
      (∃ B blk, res = Val.ptr B ∧ B ≠ A ∧ hGet ctx.heap B = some blk ∧
        kk_tag_is_lazy blk.tag = false)) :
    ∃ ctxG, kk_lazy_eval_loop (m + 1) e A KK_TAG_LAZY_IND ctx = LRes.ok ctxG res ∧
      ctxG.nextFresh = ctx.nextFresh ∧
      ctxG.evalCount = ctx.evalCount ∧ ctxG.calls = ctx.calls ∧ ctxG.yielding = ctx.yielding ∧
      (0 < bI.rc → hGet ctxG.heap A = some ({ bI with rc := bI.rc - 1 })) ∧
      (∀ C blkC, C ≠ A → hGet ctx.heap C = some blkC →
        ∃ rc2, hGet ctxG.heap C = some ({ blkC with rc := rc2 })) := by
  by_cases hrcz : bI.rc = 0
  · -- the refcount is zero: the block is freed, the forwarded value inherits its reference
    refine ⟨{ ctx with heap := hFree ctx.heap A }, ?_, rfl, rfl, rfl, rfl, ?_, ?_⟩
    · have hs : lazyLoopStep e A KK_TAG_LAZY_IND ctx bI =
          LRes.ok { ctx with heap := hFree ctx.heap A } res := by
        rw [lazyLoopStep, if_pos rfl, lazyChaseInd]
        simp only [hhead]
        rw [if_pos (by simp [hrcz, hts])]
      refine lazy_eval_loop_settle m e A KK_TAG_LAZY_IND ctx _ bI res hA hs ?_
      rcases hres with hk | ⟨B, blk, hrB, hBA, hB, hnl⟩
      · exact Or.inl hk
      · refine Or.inr ⟨B, blk, hrB, ?_, hnl⟩
        simpa [hGet_hFree_ne hBA] using hB
    · intro hpos
      omega
    · intro C blkC hCA hC
      refine ⟨blkC.rc, ?_⟩
      have : hGet (hFree ctx.heap A) C = hGet ctx.heap C := hGet_hFree_ne hCA
      simp only [this, hC]
  · -- positive refcount: dup the forwarded value and decref the block
    rcases hres with ⟨k, hk⟩ | ⟨B, blk, hrB, hBA, hB, hnl⟩
    · -- immediate result: dup is a no-op
      refine ⟨{ ctx with heap := hSet ctx.heap A ({ bI with rc := bI.rc - 1 }) }, ?_, rfl, rfl,
        rfl, rfl, ?_, ?_⟩
      · have hs : lazyLoopStep e A KK_TAG_LAZY_IND ctx bI =
            LRes.ok { ctx with heap := hSet ctx.heap A ({ bI with rc := bI.rc - 1 }) } res := by
          rw [lazyLoopStep, if_pos rfl, lazyChaseInd]
          simp only [hhead]
          rw [if_neg (by simp [hrcz])]
          rw [hk]
          rw [kk_datatype_dup]
          simp only [hA]
        exact lazy_eval_loop_settle m e A KK_TAG_LAZY_IND ctx _ bI res hA hs (Or.inl ⟨k, hk⟩)
      · intro hpos
        exact hGet_hSet_self hA _
      · intro C blkC hCA hC
        refine ⟨blkC.rc, ?_⟩
        rw [hGet_hSet_ne hCA, hC]
    · -- pointer result: dup increments its refcount, then the block is decref'd
      have hdup : kk_datatype_dup ctx res =
          some { ctx with heap := hSet ctx.heap B ({ blk with rc := blk.rc + 1 }) } := by
        rw [hrB, kk_datatype_dup]
        simp only [hB]
      have hAd : hGet (hSet ctx.heap B ({ blk with rc := blk.rc + 1 })) A = some bI := by
        rw [hGet_hSet_ne (fun hh : A = B => hBA hh.symm), hA]
      refine ⟨{ ctx with heap := hSet (hSet ctx.heap B ({ blk with rc := blk.rc + 1 })) A ({ bI with rc := bI.rc - 1 }) }, ?_, rfl, rfl, rfl, rfl, ?_, ?_⟩
      · have hs : lazyLoopStep e A KK_TAG_LAZY_IND ctx bI =
            LRes.ok ({ ctx with heap := hSet (hSet ctx.heap B ({ blk with rc := blk.rc + 1 })) A ({ bI with rc := bI.rc - 1 }) }) res := by
          rw [lazyLoopStep, if_pos rfl, lazyChaseInd]
          simp only [hhead]
          rw [if_neg (by simp [hrcz])]
          rw [hdup]
          simp only [hAd]
        refine lazy_eval_loop_settle m e A KK_TAG_LAZY_IND ctx _ bI res hA hs ?_
        refine Or.inr ⟨B, { blk with rc := blk.rc + 1 }, hrB, ?_, by simpa using hnl⟩
        rw [hGet_hSet_ne hBA]
        exact hGet_hSet_self hB _
      · intro hpos
        exact hGet_hSet_self hAd _
      · intro C blkC hCA hC
        by_cases hCB : C = B
        · subst hCB
          refine ⟨blkC.rc + 1, ?_⟩
          rw [hGet_hSet_ne hCA]
          have hbb : blkC = blk := by
            rw [hC] at hB
            exact Option.some.inj hB
          rw [hbb]
          exact hGet_hSet_self hB _
        · refine ⟨blkC.rc, ?_⟩
          rw [hGet_hSet_ne hCA, hGet_hSet_ne hCB, hC]

/- ### C1: memoization through the installed indirection -/

/-- C1: forcing a shared (refcount positive, not thread-shared) lazy
thunk through one alias installs a `KK_TAG_LAZY_IND` indirection in the
block whose field 0 holds the boxed result, and returns the result after
chasing it; a later force through another alias of the same block returns
the very same result value by merely chasing the indirection, with the
ghost evaluator-call instrumentation unchanged (the evaluator is not
invoked again). -/
theorem c1_memoization (n m : Nat) (e : EvalFn) (A : Nat) (ctx ctx2 : Ctx) (b : Block) (res : Val)
    (hA : hGet ctx.heap A = some b)
    (hlazy : kk_tag_is_lazy b.tag = true)
    (hnbh : b.tag ≠ KK_TAG_LAZY_EVAL) (hnind : b.tag ≠ KK_TAG_LAZY_IND)
    (hrcpos : 0 < b.rc) (hts : b.threadShared = false)
    (hfld : b.fields ≠ []) (hy : ctx.yielding = false)
    (he : e (lazyCallCtx (localPreCtx ctx A b) (Val.ptr ctx.nextFresh)) (Val.ptr ctx.nextFresh) =
      LRes.ok ctx2 res)
    (hy2 : ctx2.yielding = false)
    (hAp : hGet ctx2.heap A = some (kk_block_blackholed b))
    (hres : (∃ k, res = Val.imm k) ∨
      (∃ B blk, res = Val.ptr B ∧ hGet ctx2.heap B = some blk ∧
        kk_tag_is_lazy blk.tag = false)) :
    ∃ ctxF, kk_datatype_lazy_eval (n + 2) (Val.ptr A) e ctx = LRes.ok ctxF res ∧
      ctxF.evalCount = ctx2.evalCount ∧ ctxF.calls = ctx2.calls ∧
      hGet ctxF.heap A =
        some ({ (kk_block_as_indirection (kk_block_blackholed b) res) with rc := b.rc - 1 }) ∧
      (kk_block_as_indirection (kk_block_blackholed b) res).tag = KK_TAG_LAZY_IND ∧
      (kk_block_as_indirection (kk_block_blackholed b) res).fields.head? = some res ∧
      ∃ ctxG, kk_datatype_lazy_force (m + 1) (Val.ptr A) e ctxF = LRes.ok ctxG res ∧
        ctxG.evalCount = ctxF.evalCount ∧ ctxG.calls = ctxF.calls := by
  have hBneA : ∀ B blk, res = Val.ptr B → hGet ctx2.heap B = some blk →
      kk_tag_is_lazy blk.tag = false → B ≠ A := by
    intro B blk hrB hB hnl hBA
    rw [hBA, hAp] at hB
    have hblk := Option.some.inj hB
    rw [← hblk] at hnl
    simp [kk_block_blackholed, kk_tag_is_lazy, KK_TAG_LAZY, KK_TAG_LAZY_EVAL] at hnl
  -- the local dispatch installs the indirection and returns the block pointer
  have hloc : kk_lazy_eval_local A e ctx =
      LRes.ok ({ ctx2 with heap := hSet ctx2.heap A (kk_block_as_indirection (kk_block_blackholed b) res) }) (Val.ptr A) := by
    rw [kk_lazy_eval_local]
    simp only [hA]
    rw [if_neg hnbh, kk_function_call]
    simp only [he]
    rw [if_neg (by simp [hy2])]
    simp only [hAp]
  have hstep : lazyLoopStep e A b.tag ctx b =
      LRes.ok ({ ctx2 with heap := hSet ctx2.heap A (kk_block_as_indirection (kk_block_blackholed b) res) }) (Val.ptr A) := by
    rw [lazyLoopStep, if_neg hnind, lazyDispatch]
    rw [if_neg (by simp [Nat.pos_iff_ne_zero.mp hrcpos])]
    rw [if_neg (by simp [hts]), hloc]
    simp [hy2]
  have hA3 : hGet (hSet ctx2.heap A (kk_block_as_indirection (kk_block_blackholed b) res)) A =
      some (kk_block_as_indirection (kk_block_blackholed b) res) :=
    hGet_hSet_self hAp _
  -- the driver chases the freshly installed indirection
  have hchase := lazy_eval_loop_chase n e A
    ({ ctx2 with heap := hSet ctx2.heap A (kk_block_as_indirection (kk_block_blackholed b) res) })
    (kk_block_as_indirection (kk_block_blackholed b) res) res hA3 rfl
    (by simp [kk_block_as_indirection, kk_block_blackholed, hts])
    (by
      have : (kk_block_as_indirection (kk_block_blackholed b) res).fields =
          b.fields.set 0 res := rfl
      rw [this]
      exact head_set_of_ne_nil hfld res)
    (by
      rcases hres with hk | ⟨B, blk, hrB, hB, hnl⟩
      · exact Or.inl hk
      · refine Or.inr ⟨B, blk, hrB, hBneA B blk hrB hB hnl, ?_, hnl⟩
        rw [hGet_hSet_ne (hBneA B blk hrB hB hnl)]
        exact hB)
  rcases hchase with ⟨ctxF, hloopF, hfrF, hcntF, hclF, hyF, hrcF, hpresF⟩
  have hindF : hGet ctxF.heap A =
      some ({ (kk_block_as_indirection (kk_block_blackholed b) res) with rc := b.rc - 1 }) := by
    have := hrcF (by simpa [kk_block_as_indirection, kk_block_blackholed] using hrcpos)
    simpa [kk_block_as_indirection, kk_block_blackholed] using this
  refine ⟨ctxF, ?_, by simp [hcntF], by simp [hclF], hindF, rfl, ?_, ?_⟩
  · -- the first force: one dispatch iteration, then the chase
    rw [kk_datatype_lazy_eval]
    simp only [hA]
    rw [kk_lazy_eval_loop]
    simp only [hA, hstep, hA3]
    rw [if_neg (by simp [kk_block_as_indirection, KK_TAG_LAZY_IND, KK_TAG_LAZY_EVAL])]
    rw [if_pos (by simp [kk_block_as_indirection, kk_tag_is_lazy, KK_TAG_LAZY, KK_TAG_LAZY_IND])]
    have htg : (kk_block_as_indirection (kk_block_blackholed b) res).tag = KK_TAG_LAZY_IND := rfl
    rw [htg]
    exact hloopF
  · have : (kk_block_as_indirection (kk_block_blackholed b) res).fields =
        b.fields.set 0 res := rfl
    rw [this]
    exact head_set_of_ne_nil hfld res
  · -- the second force only chases the indirection
    have hchase2 := lazy_eval_loop_chase m e A ctxF
      ({ (kk_block_as_indirection (kk_block_blackholed b) res) with rc := b.rc - 1 }) res hindF
      rfl (by simp [kk_block_as_indirection, kk_block_blackholed, hts])
      (by
        have : ({ (kk_block_as_indirection (kk_block_blackholed b) res) with rc := b.rc - 1 }).fields =
            b.fields.set 0 res := rfl
        rw [this]
        exact head_set_of_ne_nil hfld res)
      (by
        rcases hres with hk | ⟨B, blk, hrB, hB, hnl⟩
        · exact Or.inl hk
        · have hBA := hBneA B blk hrB hB hnl
          have hB3 : hGet (hSet ctx2.heap A (kk_block_as_indirection (kk_block_blackholed b) res)) B = some blk := by
            rw [hGet_hSet_ne hBA]
            exact hB
          rcases hpresF B blk hBA hB3 with ⟨rc2, hBF⟩
          exact Or.inr ⟨B, { blk with rc := rc2 }, hrB, hBA, hBF, by simpa using hnl⟩)
    rcases hchase2 with ⟨ctxG, hloopG, hfrG, hcntG, hclG, hyG, hrcG, hpresG⟩
    refine ⟨ctxG, ?_, by simp [hcntG], by simp [hclG]⟩
    rw [kk_datatype_lazy_force]
    simp only [hindF]
    rw [if_pos (by simp [kk_block_is_lazy_or_special, kk_block_as_indirection, KK_TAG_LAZY, KK_TAG_LAZY_IND])]
    rw [kk_datatype_lazy_eval]
    simp only [hindF]
    have htg : (kk_block_as_indirection (kk_block_blackholed b) res).tag = KK_TAG_LAZY_IND := rfl
    rw [htg]
    exact hloopG

/-- Witness for C1 at the concrete shared thunk. -/
theorem c1_memoization_witness :
    ∃ ctxF, kk_datatype_lazy_eval 2 (Val.ptr 0) c1e c1start = LRes.ok ctxF (Val.imm 42) ∧
      ctxF.evalCount = c1mid.evalCount ∧ ctxF.calls = c1mid.calls ∧
      hGet ctxF.heap 0 =
        some ({ (kk_block_as_indirection (kk_block_blackholed c1b) (Val.imm 42)) with rc := c1b.rc - 1 }) ∧
      (kk_block_as_indirection (kk_block_blackholed c1b) (Val.imm 42)).tag = KK_TAG_LAZY_IND ∧
      (kk_block_as_indirection (kk_block_blackholed c1b) (Val.imm 42)).fields.head? =
        some (Val.imm 42) ∧
      ∃ ctxG, kk_datatype_lazy_force 1 (Val.ptr 0) c1e ctxF = LRes.ok ctxG (Val.imm 42) ∧
        ctxG.evalCount = ctxF.evalCount ∧ ctxG.calls = ctxF.calls :=
  c1_memoization 0 0 c1e 0 c1start c1mid c1b (Val.imm 42)
    (by decide) (by decide) (by decide) (by decide) (by decide) rfl (by decide) rfl
    rfl (by decide) (by decide) (Or.inl ⟨42, rfl⟩)

/- ### C8: a yielding evaluator is fatal, with no partial indirection -/

/-- C8: when the evaluator triggers the yielding protocol during the
forcing of a shared lazy thunk, the operation aborts fatally with the
error code `ENOTSUP`, and the indirection is never installed: the state
at the abort is exactly the evaluator's output state, in which the block
is still the blackhole and in particular is not tagged
`KK_TAG_LAZY_IND` (no later caller can observe a partial indirection). -/
theorem c8_yield_fatal_enotsup (n : Nat) (e : EvalFn) (A : Nat) (ctx ctx2 : Ctx) (b : Block)
    (res : Val)
    (hA : hGet ctx.heap A = some b)
    (hnbh : b.tag ≠ KK_TAG_LAZY_EVAL) (hnind : b.tag ≠ KK_TAG_LAZY_IND)
    (hrcnz : (b.rc = 0 && !b.threadShared) = false)
    (he : e (lazyCallCtx (localPreCtx ctx A b) (Val.ptr ctx.nextFresh)) (Val.ptr ctx.nextFresh) =
      LRes.ok ctx2 res)
    (hy2 : ctx2.yielding = true)
    (hAp : hGet ctx2.heap A = some (kk_block_blackholed b)) :
    kk_datatype_lazy_eval (n + 1) (Val.ptr A) e ctx = LRes.fatal ENOTSUP ctx2 ∧
    (∀ blk, hGet ctx2.heap A = some blk → blk.tag ≠ KK_TAG_LAZY_IND) := by
  have hloc : kk_lazy_eval_local A e ctx = LRes.fatal ENOTSUP ctx2 := by
    rw [kk_lazy_eval_local]
    simp only [hA]
    rw [if_neg hnbh, kk_function_call]
    simp only [he]
    rw [if_pos (by simp [hy2])]
  constructor
  · rw [kk_datatype_lazy_eval]
    simp only [hA]
    rw [kk_lazy_eval_loop]
    simp only [hA]
    have hstep : lazyLoopStep e A b.tag ctx b = LRes.fatal ENOTSUP ctx2 := by
      rw [lazyLoopStep, if_neg hnind, lazyDispatch]
      rw [if_neg (by simp [hrcnz])]
      cases hts : b.threadShared with
      | true => rw [if_pos rfl, kk_lazy_eval_thread_shared, hloc]
      | false => rw [if_neg (by simp), hloc]
    rw [hstep]
  · intro blk hblk
    rw [hAp] at hblk
    have hb2 := Option.some.inj hblk
    rw [← hb2]
    simp [kk_block_blackholed, KK_TAG_LAZY_EVAL, KK_TAG_LAZY_IND]

/-- Witness for C8 at the concrete shared thunk and yielding evaluator. -/
theorem c8_yield_fatal_enotsup_witness :
    kk_datatype_lazy_eval 1 (Val.ptr 0) c8e c8start = LRes.fatal ENOTSUP c8mid ∧
    (∀ blk, hGet c8mid.heap 0 = some blk → blk.tag ≠ KK_TAG_LAZY_IND) :=
  c8_yield_fatal_enotsup 0 c8e 0 c8start c8mid c8b (Val.imm 0)
    (by decide) (by decide) (by decide) (by decide) rfl rfl (by decide)

/- ### C9: the yield failure is not atomic -/

/-- C9 (implicit behaviour, verified): on the local path the fatal
yielding error is raised only after the shared block has been overwritten
in place into a blackhole: the context passed to the evaluator already
holds the block with tag `KK_TAG_LAZY_EVAL` and scan size 0, the fatal
state is exactly the evaluator's output state, and the block's original
tag (which differed from the blackhole tag) is not restored on this error
path. -/
theorem c9_yield_overwrites_thunk (e : EvalFn) (A : Nat) (ctx ctx2 : Ctx) (b : Block) (res : Val)
    (hA : hGet ctx.heap A = some b)
    (hnbh : b.tag ≠ KK_TAG_LAZY_EVAL)
    (hbound : A < ctx.nextFresh)
    (he : e (lazyCallCtx (localPreCtx ctx A b) (Val.ptr ctx.nextFresh)) (Val.ptr ctx.nextFresh) =
      LRes.ok ctx2 res)
    (hy2 : ctx2.yielding = true) :
    kk_lazy_eval_local A e ctx = LRes.fatal ENOTSUP ctx2 ∧
    hGet (localPreCtx ctx A b).heap A = some (kk_block_blackholed b) ∧
    (kk_block_blackholed b).tag = KK_TAG_LAZY_EVAL ∧
    (kk_block_blackholed b).scan_fsize = 0 ∧
    (kk_block_blackholed b).tag ≠ b.tag := by
  refine ⟨?_, ?_, rfl, rfl, ?_⟩
  · rw [kk_lazy_eval_local]
    simp only [hA]
    rw [if_neg hnbh, kk_function_call]
    simp only [he]
    rw [if_pos (by simp [hy2])]
  · simp only [localPreCtx, hGet]
    rw [if_neg (by omega)]
    exact hGet_hSet_self hA _
  · intro hh
    exact hnbh (Eq.symm hh)

/-- Witness for C9 at the concrete shared thunk and yielding evaluator. -/
theorem c9_yield_overwrites_thunk_witness :
    kk_lazy_eval_local 0 c8e c8start = LRes.fatal ENOTSUP c8mid ∧
    hGet (localPreCtx c8start 0 c8b).heap 0 = some (kk_block_blackholed c8b) ∧
    (kk_block_blackholed c8b).tag = KK_TAG_LAZY_EVAL ∧
    (kk_block_blackholed c8b).scan_fsize = 0 ∧
    (kk_block_blackholed c8b).tag ≠ c8b.tag :=
  c9_yield_overwrites_thunk c8e 0 c8start c8mid c8b (Val.imm 0)
    (by decide) (by decide) (by decide) rfl rfl

/- ### C5: idempotence of force -/

theorem lazy_eval_post {fuel : Nat} {v : Val} {e : EvalFn} {ctx ctx' : Ctx} {r : Val}
    (h : kk_datatype_lazy_eval fuel v e ctx = LRes.ok ctx' r) :
    (∃ k, r = Val.imm k) ∨
    (∃ B blk, r = Val.ptr B ∧ hGet ctx'.heap B = some blk ∧
      (kk_tag_is_lazy blk.tag = false ∨ blk.tag = KK_TAG_LAZY_EVAL)) := by
  cases v with
  | imm k => simp [kk_datatype_lazy_eval] at h
  | ptr A =>
    rw [kk_datatype_lazy_eval] at h
    cases hb : hGet ctx.heap A with
    | none => simp [hb] at h
    | some b =>
      simp only [hb] at h
      exact lazy_eval_loop_post e fuel A b.tag ctx ctx' r h

theorem lazy_eval_blackhole_return (n : Nat) (e : EvalFn) (A : Nat) (ctx : Ctx) (b : Block)
    (hA : hGet ctx.heap A = some b) (htag : b.tag = KK_TAG_LAZY_EVAL)
    (hrc : (b.rc = 0 && !b.threadShared) = false) (hy : ctx.yielding = false) :
    kk_datatype_lazy_eval (n + 1) (Val.ptr A) e ctx = LRes.ok ctx (Val.ptr A) := by
  have hloc : kk_lazy_eval_local A e ctx = LRes.ok ctx (Val.ptr A) := by
    rw [kk_lazy_eval_local]
    simp only [hA]
    rw [if_pos htag]
  rw [kk_datatype_lazy_eval]
  simp only [hA]
  rw [kk_lazy_eval_loop]
  simp only [hA]
  have hstep : lazyLoopStep e A b.tag ctx b = LRes.ok ctx (Val.ptr A) := by
    rw [lazyLoopStep, if_neg (by simp [htag, KK_TAG_LAZY_EVAL, KK_TAG_LAZY_IND]), lazyDispatch]
    rw [if_neg (by simp [hrc])]
    cases hts : b.threadShared with
    | true =>
      rw [if_pos rfl, kk_lazy_eval_thread_shared, hloc]
      simp [hy]
    | false =>
      rw [if_neg (by simp), hloc]
      simp [hy]
  rw [hstep]
  simp only [hA]
  rw [if_pos (by simp [htag])]

/-- C5 (amended): `force` is idempotent on its result provided the result
is not a pointer to a refcount-zero blackhole (where the unique dispatch
of C10 would re-invoke the evaluator): whenever a force from a
non-yielding state returns `r`, and `r` does not point to a block tagged
`KK_TAG_LAZY_EVAL` with refcount word zero, forcing `r` again returns
exactly `r` in the unchanged state. -/
theorem c5_idempotent_amended (n : Nat) (e : EvalFn) (v : Val) (ctx ctx' : Ctx) (r : Val)
    (hy : ctx.yielding = false)
    (h : kk_datatype_lazy_force n v e ctx = LRes.ok ctx' r)
    (hnb : ∀ B blk, r = Val.ptr B → hGet ctx'.heap B = some blk →
      blk.tag = KK_TAG_LAZY_EVAL → (blk.rc = 0 && !blk.threadShared) = false) :
    kk_datatype_lazy_force 1 r e ctx' = LRes.ok ctx' r := by
  cases v with
  | imm k =>
    rw [kk_datatype_lazy_force] at h
    cases h
    rw [kk_datatype_lazy_force]
  | ptr A =>
    rw [kk_datatype_lazy_force] at h
    cases hb : hGet ctx.heap A with
    | none => simp [hb] at h
    | some b =>
      simp only [hb] at h
      by_cases hsp : kk_block_is_lazy_or_special b = true
      · rw [if_pos hsp] at h
        have hy' : ctx'.yielding = false := lazy_eval_ok_yielding hy h
        rcases lazy_eval_post h with ⟨k, rfl⟩ | ⟨B, blk, rfl, hB, hdisj⟩
        · rw [kk_datatype_lazy_force]
        · rcases hdisj with hnl | hev
          · rw [kk_datatype_lazy_force]
            simp only [hB]
            rw [if_neg ?_]
            simp only [kk_block_is_lazy_or_special]
            simp only [kk_tag_is_lazy] at hnl
            simpa using hnl
          · have hrc := hnb B blk rfl hB hev
            rw [kk_datatype_lazy_force]
            simp only [hB]
            rw [if_pos (by simp [kk_block_is_lazy_or_special, hev, KK_TAG_LAZY, KK_TAG_LAZY_EVAL])]
            exact lazy_eval_blackhole_return 0 e B ctx' blk hB hev hrc hy'
      · rw [if_neg hsp] at h
        cases h
        rw [kk_datatype_lazy_force]
        simp only [hb]
        rw [if_neg hsp]

/-- C5 counterexample: with the evaluator `c5e` and a value pointing to a
refcount-zero blackhole, the first force returns the blackhole pointer,
but forcing that result again re-invokes the evaluator through the unique
dispatch and returns the immediate 7, which is not structurally equal to
the blackhole pointer: `force (force v) ≠ force v`. -/
theorem c5_counterexample :
    kk_datatype_lazy_force 2 (Val.ptr 0) c5e c5start = LRes.ok c5mid (Val.ptr 0) ∧
    kk_datatype_lazy_force 2 (Val.ptr 0) c5e c5mid =
      LRes.ok (lazyCallCtx c5mid (Val.ptr 0)) (Val.imm 7) ∧
    Val.imm 7 ≠ Val.ptr 0 := by
  refine ⟨by decide, by decide, by decide⟩

/-- Witness for the amended C5: re-forcing a returned shared blackhole
pointer gives the same pointer back in the unchanged state. -/
theorem c5_idempotent_amended_witness :
    kk_datatype_lazy_force 1 (Val.ptr 0) (fun _ _ => LRes.timeout) c5w =
      LRes.ok c5w (Val.ptr 0) :=
  c5_idempotent_amended 1 (fun _ _ => LRes.timeout) (Val.ptr 0) c5w c5w (Val.ptr 0)
    rfl (by decide)
    (by
      intro B blk hrB hB htag
      cases hrB
      rw [show hGet c5w.heap 0 = some (⟨KK_TAG_LAZY_EVAL, 0, 1, false, [Val.imm 0]⟩ : Block)
        from rfl] at hB
      cases hB
      decide)

/- #### Arithmetic of the reference counts -/

theorem hGet_mem : ∀ {h : Heap} {a : Nat} {b : Block}, hGet h a = some b → (a, b) ∈ h := by
  intro h
  induction h with
  | nil =>
    intro a b hg
    simp [hGet] at hg
  | cons p t ih =>
    intro a b hg
    rw [hGet] at hg
    by_cases hp : p.1 = a
    · rw [if_pos hp] at hg
      have hpb : p.2 = b := Option.some.inj hg
      subst hp
      rw [← hpb]
      exact List.mem_cons_self _ _
    · rw [if_neg hp] at hg
      exact List.mem_cons_of_mem _ (ih hg)

theorem hSet_eq_of_not_mem (blk : Block) {a : Nat} :
    ∀ {h : Heap}, (∀ q ∈ h, q.1 ≠ a) → hSet h a blk = h := by
  intro h
  induction h with
  | nil => intro _; rfl
  | cons p t ih =>
    intro ha
    have hp : p.1 ≠ a := ha p (by simp)
    simp only [hSet, List.map_cons, if_neg hp]
    have ht := ih (fun q hq => ha q (by simp [hq]))
    simp only [hSet] at ht
    rw [ht]

theorem hFree_eq_of_not_mem {a : Nat} :
    ∀ {h : Heap}, (∀ q ∈ h, q.1 ≠ a) → hFree h a = h := by
  intro h
  induction h with
  | nil => intro _; rfl
  | cons p t ih =>
    intro ha
    have hp : p.1 ≠ a := ha p (by simp)
    rw [hFree, if_neg hp]
    rw [ih (fun q hq => ha q (by simp [hq]))]

theorem heapRefs_cons (c : Nat) (p : Nat × Block) (t : Heap) :
    heapRefs c (p :: t) = blockRefs c p.2 + heapRefs c t := by
  simp [heapRefs]

theorem heapRefs_hSet {h : Heap} {a : Nat} {b : Block}
    (hget : hGet h a = some b) (hnd : (h.map Prod.fst).Nodup) (blk : Block) (c : Nat) :
    heapRefs c (hSet h a blk) + blockRefs c b = heapRefs c h + blockRefs c blk := by
  induction h with
  | nil => simp [hGet] at hget
  | cons p t ih =>
    simp only [List.map_cons, List.nodup_cons] at hnd
    rw [hGet] at hget
    by_cases hp : p.1 = a
    · rw [if_pos hp] at hget
      have hb : p.2 = b := Option.some.inj hget
      have hnomem : ∀ q ∈ t, q.1 ≠ a := by
        intro q hq hqa
        exact hnd.1 (hp ▸ hqa ▸ List.mem_map_of_mem Prod.fst hq)
      have htail : hSet t a blk = t := hSet_eq_of_not_mem blk hnomem
      simp only [hSet, List.map_cons, if_pos hp]
      simp only [hSet] at htail
      rw [htail]
      rw [heapRefs_cons, heapRefs_cons]
      rw [show ((a, blk) : Nat × Block).2 = blk from rfl, hb]
      omega
    · rw [if_neg hp] at hget
      have := ih hget hnd.2
      simp only [hSet, List.map_cons, if_neg hp]
      rw [heapRefs_cons, heapRefs_cons]
      simp only [hSet] at this
      omega

theorem heapRefs_hFree {h : Heap} {a : Nat} {b : Block}
    (hget : hGet h a = some b) (hnd : (h.map Prod.fst).Nodup) (c : Nat) :
    heapRefs c (hFree h a) + blockRefs c b = heapRefs c h := by
  induction h with
  | nil => simp [hGet] at hget
  | cons p t ih =>
    simp only [List.map_cons, List.nodup_cons] at hnd
    rw [hGet] at hget
    by_cases hp : p.1 = a
    · rw [if_pos hp] at hget
      have hb : p.2 = b := Option.some.inj hget
      have hnomem : ∀ q ∈ t, q.1 ≠ a := by
        intro q hq hqa
        exact hnd.1 (hp ▸ hqa ▸ List.mem_map_of_mem Prod.fst hq)
      rw [hFree, if_pos hp, hFree_eq_of_not_mem hnomem, heapRefs_cons, hb]
      omega
    · rw [if_neg hp] at hget
      have := ih hget hnd.2
      rw [hFree, if_neg hp, heapRefs_cons, heapRefs_cons]
      omega

theorem keys_hSet (h : Heap) (a : Nat) (blk : Block) :
    (hSet h a blk).map Prod.fst = h.map Prod.fst := by
  induction h with
  | nil => rfl
  | cons p t ih =>
    by_cases hp : p.1 = a
    · simp only [hSet, List.map_cons, if_pos hp]
      simp only [hSet] at ih
      rw [ih, hp]
    · simp only [hSet, List.map_cons, if_neg hp]
      simp only [hSet] at ih
      rw [ih]

theorem hFree_sublist (a : Nat) : ∀ (h : Heap), List.Sublist (hFree h a) h := by
  intro h
  induction h with
  | nil => exact List.Sublist.refl _
  | cons p t ih =>
    rw [hFree]
    by_cases hp : p.1 = a
    · rw [if_pos hp]
      exact ih.cons p
    · rw [if_neg hp]
      exact ih.cons₂ p

theorem mem_hSet {h : Heap} {a : Nat} {blk : Block} {p : Nat × Block} (hp : p ∈ hSet h a blk) :
    p = (a, blk) ∨ (p ∈ h ∧ p.1 ≠ a) := by
  rcases List.mem_map.mp hp with ⟨q, hq, hfq⟩
  by_cases hqa : q.1 = a
  · left
    rw [← hfq, if_pos hqa]
  · right
    rw [← hfq, if_neg hqa]
    exact ⟨hq, hqa⟩

theorem mem_hFree {a : Nat} {p : Nat × Block} :
    ∀ {h : Heap}, p ∈ hFree h a → p ∈ h ∧ p.1 ≠ a := by
  intro h
  induction h with
  | nil => intro hp; simp [hFree] at hp
  | cons q t ih =>
    intro hp
    rw [hFree] at hp
    by_cases hq : q.1 = a
    · rw [if_pos hq] at hp
      rcases ih hp with ⟨h1, h2⟩
      exact ⟨List.mem_cons_of_mem _ h1, h2⟩
    · rw [if_neg hq] at hp
      rcases List.mem_cons.mp hp with hpq | hpt
      · refine ⟨by simp [hpq], ?_⟩
        rw [hpq]
        exact hq
      · rcases ih hpt with ⟨h1, h2⟩
        exact ⟨List.mem_cons_of_mem _ h1, h2⟩

theorem blockRefs_eq_zero {n c : Nat} {blk : Block} (hc : n ≤ c)
    (hf : ∀ v ∈ blk.fields, valBound n v) : blockRefs c blk = 0 := by
  rw [blockRefs]
  apply List.sum_eq_zero
  intro x hx
  rcases List.mem_map.mp hx with ⟨v, hv, hvx⟩
  have hvf : v ∈ blk.fields := List.take_subset _ _ hv
  rw [← hvx]
  by_cases hvc : v = Val.ptr c
  · exfalso
    have hb := hf v hvf
    rw [hvc] at hb
    simp only [valBound] at hb
    omega
  · simp [hvc]

theorem heapRefs_eq_zero {n c : Nat} {h : Heap} (hc : n ≤ c)
    (hf : ∀ p ∈ h, ∀ v ∈ p.2.fields, valBound n v) : heapRefs c h = 0 := by
  rw [heapRefs]
  apply List.sum_eq_zero
  intro x hx
  rcases List.mem_map.mp hx with ⟨p, hp, hpx⟩
  rw [← hpx]
  exact blockRefs_eq_zero hc (hf p hp)

theorem rootRefs_eq_zero {n c : Nat} {roots : List Val} (hc : n ≤ c)
    (hr : ∀ v ∈ roots, valBound n v) : rootRefs c roots = 0 := by
  rw [rootRefs]
  apply List.sum_eq_zero
  intro x hx
  rcases List.mem_map.mp hx with ⟨v, hv, hvx⟩
  rw [← hvx]
  by_cases hvc : v = Val.ptr c
  · exfalso
    have hb := hr v hv
    rw [hvc] at hb
    simp only [valBound] at hb
    omega
  · simp [hvc]

theorem rootRefs_cons (a : Nat) (v : Val) (roots : List Val) :
    rootRefs a (v :: roots) = (if v = Val.ptr a then 1 else 0) + rootRefs a roots := by
  simp [rootRefs]

theorem blockRefs_rc (a : Nat) (blk : Block) (rc2 : Nat) :
    blockRefs a ({ blk with rc := rc2 }) = blockRefs a blk := rfl

theorem blockRefs_blackholed (a : Nat) (b : Block) :
    blockRefs a (kk_block_blackholed b) = 0 := by
  simp [blockRefs, kk_block_blackholed]

theorem blockRefs_alloc_copy (a : Nat) (b : Block) :
    blockRefs a (kk_block_alloc_copy b) = blockRefs a b := rfl

theorem blockRefs_indirection {c : Nat} {bh : Block} {res : Val} (hf : bh.fields ≠ []) :
    blockRefs c (kk_block_as_indirection bh res) = (if res = Val.ptr c then 1 else 0) := by
  cases hfld : bh.fields with
  | nil => exact absurd hfld hf
  | cons x xs =>
    simp [kk_block_as_indirection, blockRefs, hfld]

theorem blockRefs_scan_one {c : Nat} {bI : Block} {w : Val} (hs : bI.scan_fsize = 1)
    (hw : bI.fields.head? = some w) :
    blockRefs c bI = (if w = Val.ptr c then 1 else 0) := by
  cases hfld : bI.fields with
  | nil =>
    rw [hfld] at hw
    cases hw
  | cons x xs =>
    rw [hfld] at hw
    have hx : x = w := Option.some.inj hw
    rw [← hx]
    simp [blockRefs, hs, hfld]

/- #### Preservation of the invariant by the driver steps -/

theorem head_mem_of_head_eq {l : List Val} {w : Val} (h : l.head? = some w) : w ∈ l := by
  cases l with
  | nil => cases h
  | cons x xs =>
    have hx : x = w := Option.some.inj h
    rw [← hx]
    exact List.mem_cons_self _ _

theorem RcInv_callCtx (ctx : Ctx) (v : Val) (roots : List Val) :
    RcInv (lazyCallCtx ctx v) roots ↔ RcInv ctx roots := Iff.rfl

theorem heapRefs_hSet_rc {h : Heap} {a : Nat} {b : Block} (hget : hGet h a = some b)
    (hnd : (h.map Prod.fst).Nodup) (rc2 : Nat) (c : Nat) :
    heapRefs c (hSet h a ({ b with rc := rc2 })) = heapRefs c h := by
  have hh := heapRefs_hSet hget hnd ({ b with rc := rc2 }) c
  simp only [blockRefs] at hh
  omega

theorem RcInv_chase_free {ctx : Ctx} {A : Nat} {bI : Block} {w : Val} {R : List Val}
    (hinv : RcInv ctx (Val.ptr A :: R))
    (hA : hGet ctx.heap A = some bI) (htag : bI.tag = KK_TAG_LAZY_IND)
    (hw : bI.fields.head? = some w) :
    RcInv ({ ctx with heap := hFree ctx.heap A }) (w :: R) := by
  obtain ⟨hnd, hblocks, hroots⟩ := hinv
  have hmemA := hGet_mem hA
  obtain ⟨hAbound, hAts, hAfields, hAlazy, hAind, hAeq⟩ := hblocks _ hmemA
  have hscan : bI.scan_fsize = 1 := hAind htag
  have hbr : ∀ c, blockRefs c bI = (if w = Val.ptr c then 1 else 0) :=
    fun c => blockRefs_scan_one hscan hw
  have hwb : valBound ctx.nextFresh w := hAfields w (head_mem_of_head_eq hw)
  refine ⟨?_, ?_, ?_⟩
  · exact hnd.sublist ((hFree_sublist A ctx.heap).map Prod.fst)
  · intro p hp
    obtain ⟨hpmem, hpA⟩ := mem_hFree hp
    obtain ⟨h1, h2, h3, h4, h5, h6⟩ := hblocks p hpmem
    refine ⟨h1, h2, h3, h4, h5, ?_⟩
    have hfr := heapRefs_hFree hA hnd p.1
    rw [hbr p.1] at hfr
    have hAne : ¬ (Val.ptr A = Val.ptr p.1) := by
      intro hh
      exact hpA ((Val.ptr.inj hh).symm)
    rw [rootRefs_cons, if_neg hAne] at h6
    rw [rootRefs_cons]
    by_cases hwp : w = Val.ptr p.1
    · rw [if_pos hwp] at hfr ⊢
      simp only []
      omega
    · rw [if_neg hwp] at hfr ⊢
      simp only []
      omega
  · intro v hv
    rcases List.mem_cons.mp hv with rfl | hv2
    · exact hwb
    · exact hroots v (List.mem_cons_of_mem _ hv2)

theorem rootRefs_cons_ptr_ne {a B : Nat} (h : B ≠ a) (roots : List Val) :
    rootRefs a (Val.ptr B :: roots) = rootRefs a roots := by
  rw [rootRefs_cons, if_neg (by intro hh; exact h (Val.ptr.inj hh))]
  omega

theorem rootRefs_cons_ptr_self (a : Nat) (roots : List Val) :
    rootRefs a (Val.ptr a :: roots) = 1 + rootRefs a roots := by
  rw [rootRefs_cons, if_pos rfl]

theorem rootRefs_cons_imm (a k : Nat) (roots : List Val) :
    rootRefs a (Val.imm k :: roots) = rootRefs a roots := by
  rw [rootRefs_cons, if_neg (by simp)]
  omega

theorem RcInv_chase_dup {ctx ctxd : Ctx} {A : Nat} {bI bA : Block} {w : Val} {R : List Val}
    (hinv : RcInv ctx (Val.ptr A :: R))
    (hA : hGet ctx.heap A = some bI) (htag : bI.tag = KK_TAG_LAZY_IND)
    (hrc : bI.rc ≠ 0) (hw : bI.fields.head? = some w)
    (hdup : kk_datatype_dup ctx w = some ctxd)
    (hAd : hGet ctxd.heap A = some bA) :
    RcInv ({ ctxd with heap := hSet ctxd.heap A ({ bA with rc := bA.rc - 1 }) }) (w :: R) := by
  obtain ⟨hnd, hblocks, hroots⟩ := hinv
  have hAcl := hblocks _ (hGet_mem hA)
  dsimp only at hAcl
  obtain ⟨hAbound, hAts, hAfields, hAlazy, hAind, hAeq⟩ := hAcl
  cases w with
  | imm k =>
    rw [kk_datatype_dup] at hdup
    cases hdup
    have hbb : bA = bI := by
      rw [hA] at hAd
      exact (Option.some.inj hAd).symm
    subst hbb
    refine ⟨?_, ?_, ?_⟩
    · dsimp only
      rw [keys_hSet]
      exact hnd
    · intro p hp
      dsimp only at hp ⊢
      rcases mem_hSet hp with rfl | ⟨hpmem, hpA⟩
      · dsimp only
        refine ⟨hAbound, hAts, hAfields, hAlazy, hAind, ?_⟩
        have hhr := heapRefs_hSet_rc hA hnd (bA.rc - 1) A
        rw [rootRefs_cons_ptr_self] at hAeq
        rw [hhr, rootRefs_cons_imm]
        omega
      · have hcl := hblocks p hpmem
        obtain ⟨h1, h2, h3, h4, h5, h6⟩ := hcl
        refine ⟨h1, h2, h3, h4, h5, ?_⟩
        have hhr := heapRefs_hSet_rc hA hnd (bA.rc - 1) p.1
        rw [rootRefs_cons_ptr_ne (Ne.symm hpA)] at h6
        rw [hhr, rootRefs_cons_imm]
        omega
    · intro v hv
      dsimp only
      rcases List.mem_cons.mp hv with rfl | hv2
      · trivial
      · exact hroots v (List.mem_cons_of_mem _ hv2)
  | ptr B =>
    rw [kk_datatype_dup] at hdup
    cases hgB : hGet ctx.heap B with
    | none =>
      rw [hgB] at hdup
      cases hdup
    | some blkB =>
      rw [hgB] at hdup
      cases hdup
      dsimp only at hAd ⊢
      have hBcl := hblocks _ (hGet_mem hgB)
      dsimp only at hBcl
      obtain ⟨hBbound, hBts, hBfields, hBlazy, hBind, hBeq⟩ := hBcl
      have hndB : ((hSet ctx.heap B ({ blkB with rc := blkB.rc + 1 })).map Prod.fst).Nodup := by
        rw [keys_hSet]
        exact hnd
      by_cases hBA : B = A
      · -- self-indirection: dup bumps the very block, decref undoes it
        subst hBA
        have hbb : blkB = bI := by
          rw [hgB] at hA
          exact Option.some.inj hA
        subst hbb
        have hAd2 : hGet (hSet ctx.heap B ({ blkB with rc := blkB.rc + 1 })) B =
            some ({ blkB with rc := blkB.rc + 1 }) := hGet_hSet_self hgB _
        have hbb2 : bA = { blkB with rc := blkB.rc + 1 } := by
          rw [hAd2] at hAd
          exact (Option.some.inj hAd).symm
        subst hbb2
        refine ⟨?_, ?_, ?_⟩
        · rw [keys_hSet, keys_hSet]
          exact hnd
        · intro p hp
          rcases mem_hSet hp with rfl | ⟨hpmem, hpA⟩
          · dsimp only
            refine ⟨hAbound, hAts, hAfields, hAlazy, hAind, ?_⟩
            have hh1 := heapRefs_hSet_rc hgB hnd (blkB.rc + 1) B
            have hh2 := heapRefs_hSet_rc hAd2 hndB (blkB.rc + 1 - 1) B
            rw [rootRefs_cons_ptr_self] at hAeq ⊢
            rw [hh2, hh1]
            omega
          · rcases mem_hSet hpmem with rfl | ⟨hpmem2, hpB⟩
            · exact absurd rfl hpA
            · have hcl := hblocks p hpmem2
              obtain ⟨h1, h2, h3, h4, h5, h6⟩ := hcl
              refine ⟨h1, h2, h3, h4, h5, ?_⟩
              have hh1 := heapRefs_hSet_rc hgB hnd (blkB.rc + 1) p.1
              have hh2 := heapRefs_hSet_rc hAd2 hndB (blkB.rc + 1 - 1) p.1
              rw [rootRefs_cons_ptr_ne (Ne.symm hpB)] at h6 ⊢
              rw [hh2, hh1]
              omega
        · intro v hv
          rcases List.mem_cons.mp hv with rfl | hv2
          · exact hAbound
          · exact hroots v (List.mem_cons_of_mem _ hv2)
      · -- distinct target: its refcount gains the new reference
        have hAd2 : hGet (hSet ctx.heap B ({ blkB with rc := blkB.rc + 1 })) A = some bI := by
          rw [hGet_hSet_ne (fun hh : A = B => hBA hh.symm)]
          exact hA
        have hbb : bA = bI := by
          rw [hAd2] at hAd
          exact (Option.some.inj hAd).symm
        subst hbb
        refine ⟨?_, ?_, ?_⟩
        · rw [keys_hSet, keys_hSet]
          exact hnd
        · intro p hp
          rcases mem_hSet hp with rfl | ⟨hpmem, hpA⟩
          · dsimp only
            refine ⟨hAbound, hAts, hAfields, hAlazy, hAind, ?_⟩
            have hh1 := heapRefs_hSet_rc hgB hnd (blkB.rc + 1) A
            have hh2 := heapRefs_hSet_rc hAd2 hndB (bA.rc - 1) A
            rw [rootRefs_cons_ptr_self] at hAeq
            rw [rootRefs_cons_ptr_ne hBA]
            rw [hh2, hh1]
            omega
          · rcases mem_hSet hpmem with rfl | ⟨hpmem2, hpB⟩
            · dsimp only
              refine ⟨hBbound, hBts, hBfields, hBlazy, hBind, ?_⟩
              have hh1 := heapRefs_hSet_rc hgB hnd (blkB.rc + 1) B
              have hh2 := heapRefs_hSet_rc hAd2 hndB (bA.rc - 1) B
              rw [rootRefs_cons_ptr_ne (fun hh : A = B => hBA hh.symm)] at hBeq
              rw [rootRefs_cons_ptr_self]
              rw [hh2, hh1]
              omega
            · have hcl := hblocks p hpmem2
              obtain ⟨h1, h2, h3, h4, h5, h6⟩ := hcl
              refine ⟨h1, h2, h3, h4, h5, ?_⟩
              have hh1 := heapRefs_hSet_rc hgB hnd (blkB.rc + 1) p.1
              have hh2 := heapRefs_hSet_rc hAd2 hndB (bA.rc - 1) p.1
              rw [rootRefs_cons_ptr_ne (Ne.symm hpA)] at h6
              rw [rootRefs_cons_ptr_ne (fun hh : B = p.1 => hpB hh.symm)]
              rw [hh2, hh1]
              omega
        · intro v hv
          rcases List.mem_cons.mp hv with rfl | hv2
          · exact hBbound
          · exact hroots v (List.mem_cons_of_mem _ hv2)

theorem valBound_mono {m n : Nat} {v : Val} (h : m ≤ n) (hv : valBound m v) : valBound n v := by
  cases v with
  | imm k => trivial
  | ptr a =>
    simp only [valBound] at hv ⊢
    omega

theorem blockRefs_scan_zero {c : Nat} {blk : Block} (h : blk.scan_fsize = 0) :
    blockRefs c blk = 0 := by
  simp [blockRefs, h]

theorem set_ne_nil {l : List Val} (h : l ≠ []) (v : Val) : l.set 0 v ≠ [] := by
  cases l with
  | nil => exact absurd rfl h
  | cons x xs => simp

theorem RcInv_localPre {ctx : Ctx} {A : Nat} {b : Block} {R : List Val}
    (hinv : RcInv ctx (Val.ptr A :: R))
    (hA : hGet ctx.heap A = some b) (hlazy : kk_tag_is_lazy b.tag = true) :
    RcInv (localPreCtx ctx A b) (Val.ptr ctx.nextFresh :: Val.ptr A :: R) := by
  obtain ⟨hnd, hblocks, hroots⟩ := hinv
  have hAcl := hblocks _ (hGet_mem hA)
  dsimp only at hAcl
  obtain ⟨hAbound, hAts, hAfields, hAlazy, hAind, hAeq⟩ := hAcl
  have hXne : ∀ q ∈ ctx.heap, q.1 ≠ ctx.nextFresh := by
    intro q hq
    have := (hblocks q hq).1
    omega
  have hbound_set : ∀ p ∈ hSet ctx.heap A (kk_block_blackholed b),
      ∀ v ∈ p.2.fields, valBound ctx.nextFresh v := by
    intro p hp v hv
    rcases mem_hSet hp with rfl | ⟨hpmem, _⟩
    · exact hAfields v hv
    · exact (hblocks p hpmem).2.2.1 v hv
  have hhXzero : heapRefs ctx.nextFresh (hSet ctx.heap A (kk_block_blackholed b)) = 0 :=
    heapRefs_eq_zero (Nat.le_refl _) hbound_set
  have hAX : A ≠ ctx.nextFresh := by omega
  have hfr : ∀ c, heapRefs c (hSet ctx.heap A (kk_block_blackholed b)) + blockRefs c b =
      heapRefs c ctx.heap := by
    intro c
    have := heapRefs_hSet hA hnd (kk_block_blackholed b) c
    rw [blockRefs_blackholed] at this
    omega
  refine ⟨?_, ?_, ?_⟩
  · simp only [localPreCtx, List.map_cons, List.nodup_cons]
    constructor
    · intro hmem
      rw [keys_hSet] at hmem
      rcases List.mem_map.mp hmem with ⟨q, hq, hfq⟩
      exact hXne q hq hfq
    · rw [keys_hSet]
      exact hnd
  · intro p hp
    simp only [localPreCtx] at hp ⊢
    rcases List.mem_cons.mp hp with rfl | hp2
    · -- the fresh copy
      dsimp only
      refine ⟨by omega, rfl, ?_, ?_, ?_, ?_⟩
      · intro v hv
        exact valBound_mono (by omega) (hAfields v hv)
      · intro hl
        exact hAlazy hl
      · intro hind
        exact hAind hind
      · rw [heapRefs_cons]
        have hcz : blockRefs ctx.nextFresh (kk_block_alloc_copy b) = 0 := by
          rw [blockRefs_alloc_copy]
          exact blockRefs_eq_zero (Nat.le_refl _) hAfields
        rw [hcz, hhXzero, rootRefs_cons_ptr_self, rootRefs_cons_ptr_ne hAX,
          rootRefs_eq_zero (Nat.le_refl _) (fun v hv => hroots v (List.mem_cons_of_mem _ hv))]
        simp [kk_block_alloc_copy]
    · rcases mem_hSet hp2 with rfl | ⟨hpmem, hpA⟩
      · -- the blackholed original
        dsimp only
        refine ⟨by omega, hAts, ?_, ?_, ?_, ?_⟩
        · intro v hv
          exact valBound_mono (by omega) (hAfields v hv)
        · intro _
          exact hAlazy hlazy
        · intro hind
          simp [kk_block_blackholed, KK_TAG_LAZY_EVAL, KK_TAG_LAZY_IND] at hind
        · rw [heapRefs_cons]
          have hca : blockRefs A (kk_block_alloc_copy b) = blockRefs A b := blockRefs_alloc_copy _ _
          rw [hca, rootRefs_cons_ptr_ne (Ne.symm hAX), rootRefs_cons_ptr_self]
          rw [rootRefs_cons_ptr_self] at hAeq
          have hfrA := hfr A
          have hbrc : (kk_block_blackholed b).rc = b.rc := rfl
          omega
      · have hcl := hblocks p hpmem
        obtain ⟨h1, h2, h3, h4, h5, h6⟩ := hcl
        refine ⟨by omega, h2, ?_, h4, h5, ?_⟩
        · intro v hv
          exact valBound_mono (by omega) (h3 v hv)
        · rw [heapRefs_cons]
          have hpX : p.1 ≠ ctx.nextFresh := by omega
          rw [rootRefs_cons_ptr_ne (Ne.symm hpX), rootRefs_cons_ptr_ne (Ne.symm hpA)]
          rw [rootRefs_cons_ptr_ne (Ne.symm hpA)] at h6
          have := hfr p.1
          have hca : blockRefs p.1 (kk_block_alloc_copy b) = blockRefs p.1 b :=
            blockRefs_alloc_copy _ _
          rw [hca]
          omega
  · intro v hv
    simp only [localPreCtx]
    rcases List.mem_cons.mp hv with rfl | hv2
    · simp only [valBound]
      omega
    · rcases List.mem_cons.mp hv2 with rfl | hv3
      · simp only [valBound]
        omega
      · exact valBound_mono (by omega) (hroots v (List.mem_cons_of_mem _ hv3))

theorem mem_set_zero {l : List Val} {v w : Val} (h : v ∈ l.set 0 w) : v = w ∨ v ∈ l := by
  cases l with
  | nil => simp at h
  | cons x xs =>
    simp only [List.set] at h
    rcases List.mem_cons.mp h with rfl | hv
    · exact Or.inl rfl
    · exact Or.inr (List.mem_cons_of_mem _ hv)

theorem RcInv_install {ctx2 : Ctx} {A : Nat} {bh : Block} {res : Val} {R : List Val}
    (hinv : RcInv ctx2 (res :: Val.ptr A :: R))
    (hA : hGet ctx2.heap A = some bh)
    (hscan : bh.scan_fsize = 0) (hfld : bh.fields ≠ []) :
    RcInv ({ ctx2 with heap := hSet ctx2.heap A (kk_block_as_indirection bh res) })
      (Val.ptr A :: R) := by
  obtain ⟨hnd, hblocks, hroots⟩ := hinv
  have hAcl := hblocks _ (hGet_mem hA)
  dsimp only at hAcl
  obtain ⟨hAbound, hAts, hAfields, hAlazy, hAind, hAeq⟩ := hAcl
  have hresb : valBound ctx2.nextFresh res := hroots res (List.mem_cons_self _ _)
  have hfr : ∀ c, heapRefs c (hSet ctx2.heap A (kk_block_as_indirection bh res)) +
      blockRefs c bh = heapRefs c ctx2.heap + (if res = Val.ptr c then 1 else 0) := by
    intro c
    have hh := heapRefs_hSet hA hnd (kk_block_as_indirection bh res) c
    rw [blockRefs_indirection hfld] at hh
    exact hh
  have hbz : ∀ c, blockRefs c bh = 0 := fun c => blockRefs_scan_zero hscan
  refine ⟨?_, ?_, ?_⟩
  · dsimp only
    rw [keys_hSet]
    exact hnd
  · intro p hp
    dsimp only at hp ⊢
    rcases mem_hSet hp with rfl | ⟨hpmem, hpA⟩
    · dsimp only
      refine ⟨hAbound, hAts, ?_, ?_, ?_, ?_⟩
      · intro v hv
        rcases mem_set_zero hv with rfl | hv2
        · exact hresb
        · exact hAfields v hv2
      · intro _
        exact set_ne_nil hfld res
      · intro _
        rfl
      · have hfrA := hfr A
        have hbzA := hbz A
        have hrcA : (kk_block_as_indirection bh res).rc = bh.rc := rfl
        rw [rootRefs_cons, rootRefs_cons_ptr_self] at hAeq
        rw [rootRefs_cons_ptr_self]
        omega
    · have hcl := hblocks p hpmem
      obtain ⟨h1, h2, h3, h4, h5, h6⟩ := hcl
      refine ⟨h1, h2, h3, h4, h5, ?_⟩
      have hfrp := hfr p.1
      have hbzp := hbz p.1
      rw [rootRefs_cons, rootRefs_cons_ptr_ne (Ne.symm hpA)] at h6
      rw [rootRefs_cons_ptr_ne (Ne.symm hpA)]
      omega
  · intro v hv
    dsimp only
    rcases List.mem_cons.mp hv with rfl | hv2
    · simp only [valBound]
      omega
    · exact hroots v (List.mem_cons_of_mem _ (List.mem_cons_of_mem _ hv2))

theorem lazyLoopStep_preserve {e : EvalFn} (hE : EvalOK e) {R : List Val}
    {A tag : Nat} {ctx ctx2 : Ctx} {b : Block} {next : Val}
    (hb : hGet ctx.heap A = some b) (htag : b.tag = tag)
    (hlz : kk_tag_is_lazy tag = true)
    (hinv : RcInv ctx (Val.ptr A :: R))
    (hs : lazyLoopStep e A tag ctx b = LRes.ok ctx2 next) :
    RcInv ctx2 (next :: R) := by
  have hbcl := hinv.2.1 _ (hGet_mem hb)
  dsimp only at hbcl
  have hts : b.threadShared = false := hbcl.2.1
  rw [lazyLoopStep] at hs
  by_cases hind : tag = KK_TAG_LAZY_IND
  · rw [if_pos hind] at hs
    rw [lazyChaseInd] at hs
    cases hw : b.fields.head? with
    | none => simp [hw] at hs
    | some w =>
      simp only [hw] at hs
      by_cases hrcz : (b.rc = 0 && !b.threadShared) = true
      · rw [if_pos hrcz] at hs
        cases hs
        exact RcInv_chase_free hinv hb (htag.trans hind) hw
      · rw [if_neg hrcz] at hs
        cases hd : kk_datatype_dup ctx w with
        | none => simp [hd] at hs
        | some ctxd =>
          simp only [hd] at hs
          cases hAd : hGet ctxd.heap A with
          | none => simp [hAd] at hs
          | some bA =>
            simp only [hAd] at hs
            cases hs
            have hrc0 : b.rc ≠ 0 := by
              intro hh
              rw [hh, hts] at hrcz
              simp at hrcz
            exact RcInv_chase_dup hinv hb (htag.trans hind) hrc0 hw hd hAd
  · rw [if_neg hind] at hs
    rw [lazyDispatch] at hs
    by_cases hrz : (b.rc = 0 && !b.threadShared) = true
    · rw [if_pos hrz] at hs
      rw [kk_lazy_eval_unique, kk_function_call] at hs
      cases hcall : e (lazyCallCtx ctx (Val.ptr A)) (Val.ptr A) with
      | ok cE vE =>
        simp only [hcall] at hs
        by_cases hyE : cE.yielding = true
        · rw [if_pos hyE] at hs
          simp at hs
        · rw [if_neg hyE] at hs
          cases hs
          exact (hE _ _ R _ _ ((RcInv_callCtx ctx (Val.ptr A) _).mpr hinv) hcall).1
      | fatal err c => simp [hcall] at hs
      | timeout => simp [hcall] at hs
      | stuck => simp [hcall] at hs
    · rw [if_neg hrz] at hs
      rw [if_neg (by simp [hts])] at hs
      rw [kk_lazy_eval_local] at hs
      simp only [hb] at hs
      by_cases hbh : b.tag = KK_TAG_LAZY_EVAL
      · rw [if_pos hbh] at hs
        dsimp only at hs
        by_cases hy : ctx.yielding = true
        · rw [if_pos hy] at hs
          simp at hs
        · rw [if_neg hy] at hs
          cases hs
          exact hinv
      · rw [if_neg hbh] at hs
        rw [kk_function_call] at hs
        cases hcall : e (lazyCallCtx (localPreCtx ctx A b) (Val.ptr ctx.nextFresh))
            (Val.ptr ctx.nextFresh) with
        | ok cE vE =>
          simp only [hcall] at hs
          by_cases hyE : cE.yielding = true
          · rw [if_pos hyE] at hs
            simp at hs
          · rw [if_neg hyE] at hs
            cases hAp : hGet cE.heap A with
            | none => simp [hAp] at hs
            | some b2 =>
              simp only [hAp] at hs
              rw [if_neg (by simpa using hyE)] at hs
              cases hs
              have hlzb : kk_tag_is_lazy b.tag = true := by
                rw [htag]
                exact hlz
              have hfldb : b.fields ≠ [] := hbcl.2.2.2.1 hlzb
              have hpre := RcInv_localPre hinv hb hlzb
              have hpair := hE _ _ (Val.ptr A :: R) _ _
                ((RcInv_callCtx (localPreCtx ctx A b) (Val.ptr ctx.nextFresh) _).mpr hpre) hcall
              obtain ⟨hinvE, hbhpres⟩ := hpair
              have hbound : A < ctx.nextFresh := hbcl.1
              have hbhA : hGet (lazyCallCtx (localPreCtx ctx A b) (Val.ptr ctx.nextFresh)).heap A =
                  some (kk_block_blackholed b) := by
                show hGet ((ctx.nextFresh, kk_block_alloc_copy b) ::
                    hSet ctx.heap A (kk_block_blackholed b)) A = _
                rw [hGet, if_neg (by omega)]
                exact hGet_hSet_self hb _
              rcases hbhpres A (kk_block_blackholed b) hbhA rfl with ⟨rc2, hA2⟩
              rw [hA2] at hAp
              have hb2 : b2 = { kk_block_blackholed b with rc := rc2 } :=
                (Option.some.inj hAp).symm
              subst hb2
              exact RcInv_install hinvE hA2 rfl hfldb
        | fatal err c => simp [hcall] at hs
        | timeout => simp [hcall] at hs
        | stuck => simp [hcall] at hs

theorem lazy_eval_loop_preserve (e : EvalFn) (hE : EvalOK e) (R : List Val) :
    ∀ (fuel A tag : Nat) (ctx ctx' : Ctx) (b : Block) (r : Val),
      hGet ctx.heap A = some b → b.tag = tag → kk_tag_is_lazy tag = true →
      RcInv ctx (Val.ptr A :: R) →
      kk_lazy_eval_loop fuel e A tag ctx = LRes.ok ctx' r →
      RcInv ctx' (r :: R) := by
  intro fuel
  induction fuel with
  | zero =>
    intro A tag ctx ctx' b r _ _ _ _ h
    simp [kk_lazy_eval_loop] at h
  | succ n ih =>
    intro A tag ctx ctx' b r hb htag hlz hinv h
    rw [kk_lazy_eval_loop] at h
    simp only [hb] at h
    cases hs : lazyLoopStep e A tag ctx b with
    | ok c2 next =>
      simp only [hs] at h
      have hinv2 : RcInv c2 (next :: R) := lazyLoopStep_preserve hE hb htag hlz hinv hs
      cases next with
      | imm k =>
        cases h
        exact hinv2
      | ptr nA =>
        cases hn : hGet c2.heap nA with
        | none => simp [hn] at h
        | some nb =>
          simp only [hn] at h
          by_cases hbh : (decide (nA = A) && decide (nb.tag = KK_TAG_LAZY_EVAL)) = true
          · rw [if_pos hbh] at h
            cases h
            exact hinv2
          · rw [if_neg hbh] at h
            by_cases hlz2 : kk_tag_is_lazy nb.tag = true
            · rw [if_pos hlz2] at h
              exact ih nA nb.tag c2 ctx' nb r hn rfl hlz2 hinv2 h
            · rw [if_neg hlz2] at h
              cases h
              exact hinv2
    | fatal err c => simp [hs] at h
    | timeout => simp [hs] at h
    | stuck => simp [hs] at h

/-- C4: refcount preservation of the force driver.  For every
refcount-correct evaluator and every normally returning force of a lazy
value, the reference-count invariant is preserved with the returned value
replacing the forced root: summed over the heap, the refcount delta of
the force is exactly the delta required to own one reference to the
returned value (the indirection-chase either frees the block and lets the
forwarded value inherit its reference, or dups the forwarded value and
decrefs the block), with no leaks and no double frees. -/
theorem c4_refcount_preservation (fuel : Nat) (e : EvalFn) (v : Val) (R : List Val)
    (ctx ctx' : Ctx) (r : Val)
    (hE : EvalOK e)
    (hlz : kk_datatype_is_lazy ctx v = true)
    (hinv : RcInv ctx (v :: R))
    (h : kk_datatype_lazy_eval fuel v e ctx = LRes.ok ctx' r) :
    RcInv ctx' (r :: R) := by
  cases v with
  | imm k => simp [kk_datatype_is_lazy] at hlz
  | ptr A =>
    rw [kk_datatype_lazy_eval] at h
    cases hb : hGet ctx.heap A with
    | none => simp [hb] at h
    | some b =>
      simp only [hb] at h
      have hlzb : kk_tag_is_lazy b.tag = true := by
        rw [kk_datatype_is_lazy] at hlz
        simp only [hb] at hlz
        exact hlz
      exact lazy_eval_loop_preserve e hE R fuel A b.tag ctx ctx' b r hb rfl hlzb hinv h

/-- Witness for C4: chasing a concrete refcount-zero indirection frees it
and hands the caller one reference to the forwarded immediate. -/
theorem c4_refcount_preservation_witness :
    RcInv ({ heap := [], nextFresh := 1, yielding := false, evalCount := 0, calls := [] })
      [Val.imm 5] :=
  c4_refcount_preservation 1 (fun _ _ => LRes.timeout) (Val.ptr 0) []
    ({ heap := [(0, ⟨KK_TAG_LAZY_IND, 1, 0, false, [Val.imm 5]⟩)], nextFresh := 1,
       yielding := false, evalCount := 0, calls := [] })
    ({ heap := [], nextFresh := 1, yielding := false, evalCount := 0, calls := [] })
    (Val.imm 5)
    (by
      intro c v R c2 v2 hi he
      simp at he)
    (by decide) (by decide) (by decide)
